import Mathlib

/-!
Verification of the sewing-pattern geometry engine of the NeuralTailor
repository (`packages/pattern/core.py`) against its specification.

The Python code is shallowly embedded over exact rational arithmetic:

* `numpy` float vectors become pairs/triples of `ℚ`;
* `np.isclose(a, b)` with the default tolerances and `b = 0` reduces to
  `|a| ≤ 1e-8` (atol `1e-8` plus rtol times `|b| = 0`), and
  `np.isclose(a, 0, atol=1.5)` reduces to `|a| ≤ 3/2`;
* the scipy Euler-angle-to-rotation-matrix conversion
  (`Rotation.from_euler('xyz', ..., degrees=True).as_matrix()`) is an external
  library call involving trigonometry; it is kept abstract as a parameter
  `e2m : Euler → Mat3` of the embedded functions.  No property of `e2m` is
  assumed anywhere: the code only multiplies the resulting matrix with
  vectors, and matrix-vector multiplication is embedded concretely;
* fallible code (Python exceptions) returns `Except String`.
-/

namespace PatternCore

/-- Planar point / 2D vector, exact rational coordinates. -/
abbrev Vec2 : Type := ℚ × ℚ

/-- Spatial point / 3D vector. -/
abbrev Vec3 : Type := ℚ × ℚ × ℚ

/-- Intrinsic XYZ Euler angles in degrees (kept symbolic; only ever converted
to a matrix through the abstract `e2m` parameter). -/
abbrev Euler : Type := Vec3

/-- Row-major 3x3 matrix: the three rows. -/
abbrev Mat3 : Type := Vec3 × Vec3 × Vec3

/-- Dot product of 3-vectors. -/
def dot3 (a b : Vec3) : ℚ := a.1 * b.1 + a.2.1 * b.2.1 + a.2.2 * b.2.2

/-- Matrix-vector product `m.dot(v)` for a row-major 3x3 matrix. -/
def mat3_mulvec (m : Mat3) (v : Vec3) : Vec3 :=
  (dot3 m.1 v, dot3 m.2.1 v, dot3 m.2.2 v)

/-- Embed a 2D local point in 3D with zero third coordinate
(`np.append(local_coord, 0)`). -/
def to3 (v : Vec2) : Vec3 := (v.1, v.2, 0)

/-- Default absolute tolerance of `np.isclose` (`1e-8`); the relative part
vanishes because every closeness test in the code compares against zero. -/
def np_atol : ℚ := 1 / 100000000

/-- Absolute tolerance `atol=1.5` used by `panel_from_numeric` to detect
padding rows. -/
def pad_atol : ℚ := 3 / 2

/-- One directed edge of a panel: a pair of vertex indices plus the optional
relative-coordinate curvature control value (`None` = straight edge). -/
structure Edge where
  endpoints : Nat × Nat
  curvature : Option Vec2 := none
  deriving Repr, DecidableEq

/-- One panel: 2D vertices and edges plus 3D placement
(`panel_spec_template` supplies the defaults). -/
structure Panel where
  vertices : List Vec2 := []
  edges : List Edge := []
  rotation : Euler := 0
  translation : Vec3 := 0
  deriving Repr, DecidableEq

/-- List lookup of a vertex with an irrelevant default (the Python code
indexes `numpy` arrays; all verified statements carry validity hypotheses
that keep every index in range). -/
def vget (vs : List Vec2) (i : Nat) : Vec2 := vs.getD i 0

/-- Numeric row for one edge: the 2D edge vector followed by the 2D
curvature values. -/
abbrev EdgeRow : Type := Vec2 × Vec2

/-- Translation of `BasicPattern._edge_as_vector`: the edge as its
end-minus-start vector plus its curvature (zeros when straight). -/
def edge_as_vector (vertices : List Vec2) (e : Edge) : EdgeRow :=
  (vget vertices e.endpoints.2 - vget vertices e.endpoints.1, e.curvature.getD 0)

/-- Translation of `BasicPattern._edge_dict`: the curvature field is stored
only when it is not close to zero (`np.isclose` componentwise). -/
def edge_dict (vstart vend : Nat) (curvature : Vec2) : Edge :=
  { endpoints := (vstart, vend),
    curvature :=
      if |curvature.1| ≤ np_atol ∧ |curvature.2| ≤ np_atol then none else some curvature }

/-- Componentwise bounding-box minimum of a nonempty vertex list
(`np.min(vertices, axis=0)`). -/
def vert_min (v0 : Vec2) (vs : List Vec2) : Vec2 :=
  vs.foldl (fun m v => (min m.1 v.1, min m.2 v.2)) v0

/-- Componentwise bounding-box maximum of a nonempty vertex list
(`np.max(vertices, axis=0)`). -/
def vert_max (v0 : Vec2) (vs : List Vec2) : Vec2 :=
  vs.foldl (fun m v => (max m.1 v.1, max m.2 v.2)) v0

/-- Vertices with the bounding-box low-left corner shifted to the origin
(`vertices - np.min(vertices, axis=0)`). -/
def shifted_verts (v0 : Vec2) (vrest : List Vec2) : List Vec2 :=
  (v0 :: vrest).map (fun v => v - vert_min v0 vrest)

/-- Ids of the shifted vertices sitting on the Ox axis
(`full_range[np.isclose(vertices[:, 1], 0)]`). -/
def on_ox_ids (verts1 : List Vec2) : List Nat :=
  (List.range verts1.length).filter (fun i => decide (|(vget verts1 i).2| ≤ np_atol))

/-- First index (among `i0 :: irest`) whose vertex has minimal x
(`np.argmin` keeps the first minimum). -/
def argmin_x (verts1 : List Vec2) (i0 : Nat) (irest : List Nat) : Nat :=
  irest.foldl (fun best i => if (vget verts1 i).1 < (vget verts1 best).1 then i else best) i0

/-- Translation of `BasicPattern.panel_as_numeric`.  Steps, as in the source:
shift the bounding-box low-left corner to the origin; among vertices on the
Ox axis pick the first one of minimal x (`np.argmin` keeps the first
minimum) and re-shift so it is the local origin; rotate the edge list
cyclically so the first emitted edge starts at that origin and record the
old-index-to-new-position map; emit each edge via `edge_as_vector`; pad with
zero rows up to `pad_to_len` (failing when the panel has more edges); return
the rows, the unchanged Euler rotation, the translation compensated by
`- R · (shift, 0)`, and the edge-index map. -/
def panel_as_numeric (e2m : Euler → Mat3) (p : Panel) (pad_to_len : Option Nat) :
    Except String (List EdgeRow × Euler × Vec3 × List Nat) :=
  match p.vertices with
  | [] => .error "panel_as_numeric: empty vertex array"
  | v0 :: vrest =>
    let verts1 := shifted_verts v0 vrest
    match on_ox_ids verts1 with
    | [] => .error "panel_as_numeric: argmin over empty selection"
    | i0 :: irest =>
      let origin_id := argmin_x verts1 i0 irest
      let origin_v := vget verts1 origin_id
      let verts2 := verts1.map (fun v => v - origin_v)
      let shift := -vert_min v0 vrest - origin_v
      match p.edges.findIdx? (fun e => e.endpoints.1 == origin_id) with
      | none => .error "panel_as_numeric: no edge starts at the chosen origin"
      | some f =>
        let n := p.edges.length
        let rotated_edges := p.edges.drop f ++ p.edges.take f
        let ids := List.range n
        let rotated_edge_ids := ids.drop (n - f) ++ ids.take (n - f)
        let edge_seq := rotated_edges.map (edge_as_vector verts2)
        let pad_rows : Except String (List EdgeRow) :=
          match pad_to_len with
          | none => .ok edge_seq
          | some len =>
            if len < n then .error "panel_as_numeric: panel cannot fit into requested length"
            else .ok (edge_seq ++ List.replicate (len - n) ((0 : Vec2), (0 : Vec2)))
        match pad_rows with
        | .error e => .error e
        | .ok padded =>
          let rot_m := e2m p.rotation
          let shift3 : Vec3 := (shift.1, shift.2, 0)
          let translation := p.translation + -(mat3_mulvec rot_m shift3)
          .ok (padded, p.rotation, translation, rotated_edge_ids)

/-- Mask used when `padded=True`: a row is kept iff it is NOT all-close to
the zero pad vector within absolute tolerance 1.5
(`~np.all(np.isclose(edge_sequence, 0, atol=1.5), axis=1)`). -/
def keep_row (r : EdgeRow) : Bool :=
  ! (decide (|r.1.1| ≤ pad_atol) && decide (|r.1.2| ≤ pad_atol) &&
     decide (|r.2.1| ≤ pad_atol) && decide (|r.2.2| ≤ pad_atol))

/-- Vertex accumulation loop of `panel_from_numeric`: starting from `v`,
each processed row appends the previous vertex plus the row's edge vector. -/
def walk_verts (v : Vec2) : List EdgeRow → List Vec2
  | [] => [v]
  | r :: rs => v :: walk_verts (v + r.1) rs

/-- Sum of the edge (xy) components of a row list; the cumulative position
reached after walking all rows from the origin. -/
def rows_sum (rows : List EdgeRow) : Vec2 := rows.foldl (fun v r => v + r.1) 0

/-- Translation of `BasicPattern.panel_from_numeric` (creating or updating
the panel `base`).  If `padded`, rows close to the zero pad vector are
dropped (`keep_row`).  The remaining rows are walked from the local origin:
rows `0..n-2` produce vertices and edges `(i, i+1)`; the last row closes the
loop onto vertex `0` when the final position is close to `(0,0)`, otherwise
one extra vertex is appended at the discrepancy point, the edge `(n-1, n)`
is produced and a warning is signalled (second component `true`).  Rotation
and translation are set only when supplied.  An empty (post-filter) row list
is an `IndexError` in the source (`edge_sequence[-1]`). -/
def panel_from_numeric (base : Panel) (edge_sequence : List EdgeRow)
    (rotation : Option Euler) (translation : Option Vec3) (padded : Bool) :
    Except String (Panel × Bool) :=
  let rows := if padded then edge_sequence.filter keep_row else edge_sequence
  match rows with
  | [] => .error "panel_from_numeric: index -1 is out of bounds"
  | _ :: _ =>
    let n := rows.length
    let verts0 := walk_verts 0 rows.dropLast
    let edges0 := List.zipWith (fun i r => edge_dict i (i + 1) r.2) (List.range (n - 1)) rows
    let last_row := rows.getLastD ((0 : Vec2), (0 : Vec2))
    let fin_vert := verts0.getLastD 0 + last_row.1
    if |fin_vert.1| ≤ np_atol ∧ |fin_vert.2| ≤ np_atol then
      .ok ({ base with
              vertices := verts0,
              edges := edges0 ++ [edge_dict (n - 1) 0 last_row.2],
              rotation := rotation.getD base.rotation,
              translation := translation.getD base.translation }, false)
    else
      .ok ({ base with
              vertices := verts0 ++ [fin_vert],
              edges := edges0 ++ [edge_dict (n - 1) n last_row.2],
              rotation := rotation.getD base.rotation,
              translation := translation.getD base.translation }, true)

/-! Self-intersection checker (`_is_panel_self_intersecting` and helpers). -/

/-- Straight segment given by its two endpoints. -/
abbrev Segment : Type := Vec2 × Vec2

/-- Translation of the local `ccw` helper inside
`BasicPattern._is_segm_intersecting`: positive for a counterclockwise angle,
negative for clockwise, zero for collinear points. -/
def ccw (start_pt end_pt point : Vec2) : ℚ :=
  (end_pt.1 - start_pt.1) * (point.2 - start_pt.2)
    - (point.1 - start_pt.1) * (end_pt.2 - start_pt.2)

/-- Translation of `BasicPattern._is_segm_intersecting`: the segments count
as intersecting only when, for each of them, the two endpoints of the other
lie strictly on opposite sides (both `ccw` products strictly negative); any
nonnegative product -- in particular segments sharing a vertex, where a
product is exactly zero -- yields `false`. -/
def is_segm_intersecting (segment1 segment2 : Segment) : Bool :=
  if ccw segment1.1 segment1.2 segment2.1 * ccw segment1.1 segment1.2 segment2.2 ≥ 0
      ∨ ccw segment2.1 segment2.2 segment1.1 * ccw segment2.1 segment2.2 segment1.2 ≥ 0
  then false
  else true

/-- Translation of `BasicPattern._control_to_abs_coord`: absolute position
of a Bezier control point stored in relative (edge-frame) coordinates. -/
def control_to_abs_coord (start_pt end_pt control_scale : Vec2) : Vec2 :=
  let edge := end_pt - start_pt
  let edge_perp : Vec2 := (-edge.2, edge.1)
  start_pt + control_scale.1 • edge + control_scale.2 • edge_perp

/-- Edge list in coordinates built by `_is_panel_self_intersecting`: each
straight edge is one segment; a curved edge is approximated by the two
segments through its absolute-coordinate control point. -/
def panel_segments (p : Panel) : List Segment :=
  p.edges.flatMap (fun e =>
    let c0 := vget p.vertices e.endpoints.1
    let c1 := vget p.vertices e.endpoints.2
    match e.curvature with
    | some c =>
      let curv_abs := control_to_abs_coord c0 c1 c
      [(c0, curv_abs), (curv_abs, c1)]
    | none => [(c0, c1)])

/-- Pairwise double loop of `_is_panel_self_intersecting`: some pair
`(i1, i2)` with `i1 < i2` intersects. -/
def any_pair_intersecting : List Segment → Bool
  | [] => false
  | s :: rest => rest.any (fun t => is_segm_intersecting s t) || any_pair_intersecting rest

/-- Translation of `BasicPattern._is_panel_self_intersecting`. -/
def is_panel_self_intersecting (p : Panel) : Bool :=
  any_pair_intersecting (panel_segments p)

/-! Parametric transform engine (`ParametrizedPattern`). -/

/-- Parameter value: a scalar or a list (e.g. the 2-value curve case). -/
abbrev PValue : Type := Sum ℚ (List ℚ)

/-- Translation of `ParametrizedPattern._invert_value`.  Multiplicative
inversion of a value close to zero (`np.isclose`, i.e. `|v| ≤ 1e-8`) raises
`ZeroDivisionError`; otherwise each component is replaced by `1/v`
(the source returns a lazy `map` for the list case; it is realized here).
Additive inversion negates and never fails. -/
def invert_value (value : PValue) (multiplicative : Bool) : Except String PValue :=
  if multiplicative then
    match value with
    | .inr l =>
      if l.any (fun x => decide (|x| ≤ np_atol)) then
        .error "Zero value encountered while restoring multiplicative parameter."
      else .ok (.inr (l.map (fun x => 1 / x)))
    | .inl v =>
      if |v| ≤ np_atol then
        .error "Zero value encountered while restoring multiplicative parameter."
      else .ok (.inl (1 / v))
  else
    match value with
    | .inr l => .ok (.inr (l.map (fun x => -x)))
    | .inl v => .ok (.inl (-v))

/-- One edge-influence entry of a parameter or constraint: a single edge id
or an ordered meta-edge chain, the extension direction, an optional custom
extension line, and the transient constraint bookkeeping fields
(`value` = last applied scaling, `clength` = cached length). -/
structure EdgeInfluence where
  id : Sum Nat (List Nat)
  direction : String := ""
  along : Option Vec2 := none
  value : Option ℚ := none
  clength : Option ℚ := none
  deriving Repr, DecidableEq

/-- Squared euclidean norm of a 2D vector. -/
def sqnorm2 (v : Vec2) : ℚ := v.1 ^ 2 + v.2 ^ 2

/-- Translation of `ParametrizedPattern._meta_edge`.  Returns the ordered
vertex ids and coordinates of the targeted edge or meta-edge together with
the UNNORMALIZED extension line `u` and its squared norm `nsq`.  The source
instead returns the unit line `t = u / norm(u)` and the scalar
`t . (last - first)`; the only consumer verified here (the multiplicative
branch of `_extend_edge`) uses the line exclusively through the projection
`(x . t) t = ((x . u) / nsq) u`, which is represented exactly by the
returned pair.  The `np.isclose(norm(u), 0)` degeneracy test
(`norm(u) ≤ 1e-8`) is equivalently `nsq ≤ 1e-16`.  A meta-edge with an
empty id list would raise an `IndexError` in the source; it is mapped to
the empty vertex list here and is excluded by the hypotheses of every
statement below. -/
def meta_edge (p : Panel) (edge_influence : EdgeInfluence) :
    Except String (List Nat × List Vec2 × Vec2 × ℚ) :=
  let verts_ids : List Nat :=
    match edge_influence.id with
    | .inr edge_ids =>
      (match edge_ids with
       | [] => []
       | e0 :: _ => [(p.edges.getD e0 ⟨(0, 0), none⟩).endpoints.1])
      ++ edge_ids.map (fun ei => (p.edges.getD ei ⟨(0, 0), none⟩).endpoints.2)
    | .inl e =>
      [(p.edges.getD e ⟨(0, 0), none⟩).endpoints.1,
       (p.edges.getD e ⟨(0, 0), none⟩).endpoints.2]
  let verts_coords := verts_ids.map (vget p.vertices)
  let target_line :=
    match edge_influence.along with
    | some t => t
    | none => verts_coords.getLastD 0 - verts_coords.headD 0
  let nsq := sqnorm2 target_line
  if nsq ≤ np_atol ^ 2 then .error "target line is zero"
  else .ok (verts_ids, verts_coords, target_line, nsq)

/-- Translation of `ParametrizedPattern._extend_edge`, multiplicative mode.
Each influenced vertex is moved so that its projection onto the extension
line through the fixed point is rescaled by `value`:
`new = v - (1 - value) * proj(v - fixed)`.  The fixed point is the chain
start for direction `end`, the chain end for direction `start`, and the
midpoint for `both`; an unknown direction raises.  (A list `value` raises
`ValueError` in the source; the embedding takes a scalar.  The additive
branch normalizes each projection with a square root and is not referenced
by any claim, so it is not modelled.) -/
def extend_edge (p : Panel) (panel_influence : EdgeInfluence) (value : ℚ) :
    Except String Panel :=
  match meta_edge p panel_influence with
  | .error e => .error e
  | .ok (verts_ids, verts_coords, u, nsq) =>
    let fixed : Except String Vec2 :=
      if panel_influence.direction = "end" then .ok (verts_coords.headD 0)
      else if panel_influence.direction = "start" then .ok (verts_coords.getLastD 0)
      else if panel_influence.direction = "both" then
        .ok (((1 : ℚ) / 2) • (verts_coords.headD 0 + verts_coords.getLastD 0))
      else .error "Unknown edge extention direction"
    match fixed with
    | .error e => .error e
    | .ok fx =>
      let proj := fun c : Vec2 => (((c - fx).1 * u.1 + (c - fx).2 * u.2) / nsq) • u
      let new_verts := verts_coords.map (fun c => c - (1 - value) • proj c)
      let upd := (verts_ids.zip new_verts).foldl
        (fun vs (iv : Nat × Vec2) => vs.set iv.1 iv.2) p.vertices
      .ok { p with vertices := upd }


/-- Convex 10x10 square panel of 4 straight edges (spec test scenario). -/
def square_panel : Panel := {
  vertices := [(0, 0), (10, 0), (10, 10), (0, 10)],
  edges := [⟨(0, 1), none⟩, ⟨(1, 2), none⟩, ⟨(2, 3), none⟩, ⟨(3, 0), none⟩] }

/-- Bowtie panel: same four vertices joined so that two edges cross at the
interior point (5,5) (spec test scenario). -/
def bowtie_panel : Panel := {
  vertices := [(0, 0), (10, 10), (10, 0), (0, 10)],
  edges := [⟨(0, 1), none⟩, ⟨(1, 2), none⟩, ⟨(2, 3), none⟩, ⟨(3, 0), none⟩] }

/-! Stitch tags (`stitches_as_tags` and helpers). -/

/-- One side of a stitch: `{'panel': name, 'edge': index}`. -/
abbrev Side : Type := String × Nat

/-- One stitch: its two sides. -/
abbrev Stitch : Type := Side × Side

/-- Dictionary access `self.pattern['panels'][name]` over the association
list of panels. -/
def lookup_panel (panels : List (String × Panel)) (name : String) : Panel :=
  (panels.lookup name).getD {}

/-- Translation of `BasicPattern._point_in_3D` in its matrix form: embed the
2D local point with zero third coordinate, rotate, translate.  (The source
also accepts Euler angles and converts them first; the embedded callers
apply the abstract conversion `e2m` before calling.) -/
def point_in_3D (local_coord : Vec2) (rotation : Mat3) (translation : Vec3) : Vec3 :=
  mat3_mulvec rotation (to3 local_coord) + translation

/-- Per-side computation inside `BasicPattern.stitches_as_tags`: the 2D
midpoint of the side's edge (mean of its two endpoint vertices) carried to
3D world space through the panel's placement. -/
def side_tag (e2m : Euler → Mat3) (panels : List (String × Panel)) (s : Side) : Vec3 :=
  let panel := lookup_panel panels s.1
  let e := panel.edges.getD s.2 ⟨(0, 0), none⟩
  let edge_mean := ((1 : ℚ) / 2) •
    (vget panel.vertices e.endpoints.1 + vget panel.vertices e.endpoints.2)
  point_in_3D edge_mean (e2m panel.rotation) panel.translation

/-- Tag of one stitch in `BasicPattern.stitches_as_tags`: the average of the
two sides' 3D edge midpoints. -/
def stitch_tag (e2m : Euler → Mat3) (panels : List (String × Panel)) (st : Stitch) : Vec3 :=
  ((1 : ℚ) / 2) • (side_tag e2m panels st.1 + side_tag e2m panels st.2)

/-- Translation of `BasicPattern.stitches_as_tags`: the per-stitch tag list. -/
def stitches_as_tags (e2m : Euler → Mat3) (panels : List (String × Panel))
    (stitches : List Stitch) : List Vec3 :=
  stitches.map (stitch_tag e2m panels)

/-- Endpoint-order reversal of a single edge (curvature field kept). -/
def swap_edge (e : Edge) : Edge :=
  ⟨(e.endpoints.2, e.endpoints.1), e.curvature⟩

/-- Reversal of edge `i` of a panel. -/
def reverse_edge (p : Panel) (i : Nat) : Panel :=
  ⟨p.vertices, p.edges.set i (swap_edge (p.edges.getD i ⟨(0, 0), none⟩)),
   p.rotation, p.translation⟩

/-- Transformation quantified over by the claim: reverse the endpoint order
of edge `i` of the panel called `name`. -/
def reverse_edge_in (panels : List (String × Panel)) (name : String) (i : Nat) :
    List (String × Panel) :=
  panels.map (fun pr => if pr.1 = name then (pr.1, reverse_edge pr.2 i) else pr)

/-- Relocation of a panel's local origin by `d` (all vertices shifted by
`d`) with the compensating translation `T - R (d, 0)` that preserves every
vertex's world position. -/
def relocate (e2m : Euler → Mat3) (p : Panel) (d : Vec2) : Panel :=
  ⟨p.vertices.map (fun v => v + d), p.edges, p.rotation,
   p.translation - mat3_mulvec (e2m p.rotation) (to3 d)⟩

/-- Transformation quantified over by the claim: relocate the local origin
of the panel called `name`. -/
def relocate_panel (e2m : Euler → Mat3) (panels : List (String × Panel)) (name : String)
    (d : Vec2) : List (String × Panel) :=
  panels.map (fun pr => if pr.1 = name then (pr.1, relocate e2m pr.2 d) else pr)

/-- Validity of a stitch side: the endpoints of the referenced edge are
in-range vertex indices of the referenced panel. -/
def side_ok (panels : List (String × Panel)) (s : Side) : Prop :=
  ((lookup_panel panels s.1).edges.getD s.2 ⟨(0, 0), none⟩).endpoints.1
      < (lookup_panel panels s.1).vertices.length
    ∧ ((lookup_panel panels s.1).edges.getD s.2 ⟨(0, 0), none⟩).endpoints.2
      < (lookup_panel panels s.1).vertices.length

/-! Parameters, constraints, and the tensor decode path of
`ParametrizedPattern`. -/

/-- One influence entry of a parameter or constraint: the target panel and
its edge list. -/
structure Influence where
  panel : String := ""
  edge_list : List EdgeInfluence := []
  deriving Repr, DecidableEq

/-- Parameter record (the fields handled by value bookkeeping). -/
structure Param where
  ptype : String := ""
  value : Option PValue := none
  influence : List Influence := []
  deriving Repr, DecidableEq

/-- Constraint record (`length_equality`). -/
structure Constraint where
  ctype : String := ""
  influence : List Influence := []
  deriving Repr, DecidableEq

/-- The `pattern` subtree of the spec: panels and stitches. -/
structure PatternPart where
  panels : List (String × Panel) := []
  stitches : List Stitch := []
  deriving Repr, DecidableEq

/-- The pattern spec tree (the parts touched by the verified operations). -/
structure Spec where
  pattern : PatternPart := {}
  parameters : List (String × Param) := []
  parameter_order : List String := []
  constraints : Option (List (String × Constraint)) := none
  deriving Repr, DecidableEq

/-- Nulling of a constraint edge's cached scaling factor. -/
def invalidate_edge (ed : EdgeInfluence) : EdgeInfluence :=
  { ed with value := none }

/-- Nulling of all cached scaling factors of one influence entry. -/
def invalidate_influence (infl : Influence) : Influence :=
  { infl with edge_list := infl.edge_list.map invalidate_edge }

/-- Nulling of all cached scaling factors of one constraint. -/
def invalidate_constraint (c : Constraint) : Constraint :=
  { c with influence := c.influence.map invalidate_influence }

/-- Nulling of a parameter's value. -/
def invalidate_param (pm : Param) : Param :=
  { pm with value := none }

/-- Translation of `ParametrizedPattern._invalidate_all_values`: every
parameter value and every constraint edge's cached `value` becomes `None`
(the source also prints a warning when anything changed). -/
def invalidate_all_values (s : Spec) : Spec :=
  { s with
    parameters := s.parameters.map (fun pr => (pr.1, invalidate_param pr.2)),
    constraints := s.constraints.map (fun cs =>
      cs.map (fun cp => (cp.1, invalidate_constraint cp.2))) }

/-- Sequencing of a fallible step over a list, stopping at the first error
(the shape of the source's `for` loops over fallible per-item work). -/
def map_except {α β : Type} (f : α → Except String β) : List α → Except String (List β)
  | [] => .ok []
  | a :: as =>
    match f a, map_except f as with
    | .ok b, .ok bs => .ok (b :: bs)
    | .error e, _ => .error e
    | .ok _, .error e => .error e

/-- Translation of `BasicPattern.pattern_from_tensors`: replace all panels
(names synthesized as `panel_<index>` in input order) by decoding each
per-panel row list, then replace all stitches.  Stitch recovery demands
`padded=True` (`NotImplementedError` otherwise); each flattened stitch index
is split as `panel_id = id / edges_per_panel`, `edge_id = id %
edges_per_panel` with `edges_per_panel` the per-panel row count
(`pattern_representation.shape[1]`).  With no stitch info the stitch list is
emptied (with a warning). -/
def pattern_from_tensors (s : Spec) (pattern_representation : List (List EdgeRow))
    (panel_rotations : Option (List Euler)) (panel_translations : Option (List Vec3))
    (stitches : Option (List (Nat × Nat))) (padded : Bool) : Except String Spec :=
  let in_panel_order := (List.range pattern_representation.length).map
    (fun idx => "panel_" ++ toString idx)
  match map_except (fun ir : Nat × List EdgeRow =>
      match panel_from_numeric {} ir.2
          (panel_rotations.map (fun l => l.getD ir.1 0))
          (panel_translations.map (fun l => l.getD ir.1 0)) padded with
      | .ok pw => .ok pw.1
      | .error e => .error e) pattern_representation.enum with
  | .error e => .error e
  | .ok new_panels =>
    let panels_assoc := in_panel_order.zip new_panels
    match stitches with
    | some st =>
      if 0 < st.length then
        if padded = false then
          .error "Recovering stitches for unpadded pattern is not supported"
        else
          let edges_per_panel := (pattern_representation.headD []).length
          let new_stitches : List Stitch := st.map (fun pr =>
            ((in_panel_order.getD (pr.1 / edges_per_panel) "", pr.1 % edges_per_panel),
             (in_panel_order.getD (pr.2 / edges_per_panel) "", pr.2 % edges_per_panel)))
          .ok { s with pattern := ⟨panels_assoc, new_stitches⟩ }
      else .ok { s with pattern := ⟨panels_assoc, []⟩ }
    | none => .ok { s with pattern := ⟨panels_assoc, []⟩ }

/-- Translation of `ParametrizedPattern.pattern_from_tensors`: the basic
update followed by `_invalidate_all_values`. -/
def parametrized_pattern_from_tensors (s : Spec)
    (pattern_representation : List (List EdgeRow))
    (panel_rotations : Option (List Euler)) (panel_translations : Option (List Vec3))
    (stitches : Option (List (Nat × Nat))) (padded : Bool) : Except String Spec :=
  match pattern_from_tensors s pattern_representation panel_rotations panel_translations
      stitches padded with
  | .ok s1 => .ok (invalidate_all_values s1)
  | .error e => .error e

/-- Spec-level form of `BasicPattern.panel_from_numeric`: update the named
panel in place when it exists, create it from the template otherwise. -/
def spec_panel_from_numeric (s : Spec) (panel_name : String)
    (edge_sequence : List EdgeRow) (rotation : Option Euler) (translation : Option Vec3)
    (padded : Bool) : Except String Spec :=
  let base := (s.pattern.panels.lookup panel_name).getD {}
  match panel_from_numeric base edge_sequence rotation translation padded with
  | .ok pw =>
    let new_panels :=
      if (s.pattern.panels.lookup panel_name).isSome then
        s.pattern.panels.map (fun pr => if pr.1 = panel_name then (pr.1, pw.1) else pr)
      else s.pattern.panels ++ [(panel_name, pw.1)]
    .ok { s with pattern := ⟨new_panels, s.pattern.stitches⟩ }
  | .error e => .error e

/-- Translation of `ParametrizedPattern.panel_from_numeric`: the basic panel
update followed by `_invalidate_all_values`. -/
def parametrized_panel_from_numeric (s : Spec) (panel_name : String)
    (edge_sequence : List EdgeRow) (rotation : Option Euler) (translation : Option Vec3)
    (padded : Bool) : Except String Spec :=
  match spec_panel_from_numeric s panel_name edge_sequence rotation translation padded with
  | .ok s1 => .ok (invalidate_all_values s1)
  | .error e => .error e

/-! Panel orderer (`BasicPattern.panel_order`) and the tensor encode
orchestration (`BasicPattern.pattern_as_tensors`). -/

/-- Translation of `BasicPattern._panel_universal_transtation`: of the four
3D-mapped midpoints of the 2D bounding-box sides, the one highest in world
Y (`np.argmax` keeps the first maximum).  An empty vertex list raises at
`np.max` in the source; the embedding returns the origin there, and no
verified statement exercises that case. -/
def panel_universal_translation (e2m : Euler → Mat3) (p : Panel) : Vec3 :=
  match p.vertices with
  | [] => 0
  | v0 :: vrest =>
    let top_right := vert_max v0 vrest
    let low_left := vert_min v0 vrest
    let mid_x := (top_right.1 + low_left.1) / 2
    let mid_y := (top_right.2 + low_left.2) / 2
    let rot_matrix := e2m p.rotation
    let mid_points : List Vec3 :=
      [point_in_3D (mid_x, top_right.2) rot_matrix p.translation,
       point_in_3D (mid_x, low_left.2) rot_matrix p.translation,
       point_in_3D (top_right.1, mid_y) rot_matrix p.translation,
       point_in_3D (low_left.1, mid_y) rot_matrix p.translation]
    match mid_points with
    | [] => 0
    | q0 :: qs => qs.foldl (fun best q => if best.2.1 < q.2.1 then q else best) q0

/-- Lexicographic order on `(reference value, name)` pairs: the order used
by Python's `sorted(zip(reference, name_list))`. -/
def lex_le {α : Type} [LinearOrder α] (x y : ℚ × α) : Prop :=
  x.1 < y.1 ∨ (x.1 = y.1 ∧ x.2 ≤ y.2)

instance lex_le_decidable {α : Type} [LinearOrder α] : DecidableRel (@lex_le α _) :=
  fun x y => inferInstanceAs (Decidable (x.1 < y.1 ∨ (x.1 = y.1 ∧ x.2 ≤ y.2)))

instance lex_le_total {α : Type} [LinearOrder α] : IsTotal (ℚ × α) (@lex_le α _) := by
  constructor
  intro x y
  rcases lt_trichotomy x.1 y.1 with h | h | h
  · exact Or.inl (Or.inl h)
  · rcases le_total x.2 y.2 with h2 | h2
    · exact Or.inl (Or.inr ⟨h, h2⟩)
    · exact Or.inr (Or.inr ⟨h.symm, h2⟩)
  · exact Or.inr (Or.inl h)

instance lex_le_trans {α : Type} [LinearOrder α] : IsTrans (ℚ × α) (@lex_le α _) := by
  constructor
  intro x y z hxy hyz
  rcases hxy with h1 | ⟨h1, h1b⟩ <;> rcases hyz with h2 | ⟨h2, h2b⟩
  · exact Or.inl (h1.trans h2)
  · exact Or.inl (h2 ▸ h1)
  · exact Or.inl (h1 ▸ h2)
  · exact Or.inr ⟨h1.trans h2, h1b.trans h2b⟩

instance lex_le_antisymm {α : Type} [LinearOrder α] : IsAntisymm (ℚ × α) (@lex_le α _) := by
  constructor
  intro x y hxy hyx
  rcases hxy with h1 | ⟨h1, h1b⟩
  · rcases hyx with h2 | ⟨h2, _⟩
    · exact absurd (h1.trans h2) (lt_irrefl _)
    · exact absurd h1 (h2 ▸ lt_irrefl _)
  · rcases hyx with h2 | ⟨_, h2b⟩
    · exact absurd (h1 ▸ h2) (lt_irrefl _)
    · exact Prod.ext h1 (le_antisymm h1b h2b)

/-- Component of a 3D location selected by the sorting dimension. -/
def vcomp (v : Vec3) (dim : Nat) : ℚ :=
  if dim = 0 then v.1 else if dim = 1 then v.2.1 else v.2.2

/-- Sorted `(reference, name)` pairs: `sorted(zip(reference, name_list))`.
Python's stable sort over a linear order produces the unique sorted
permutation, embedded as insertion sort. -/
def sort_pairs {α : Type} [LinearOrder α] (loc : α → Vec3) (dim : Nat) (names : List α) :
    List (ℚ × α) :=
  List.insertionSort lex_le (names.map (fun nm => (vcomp (loc nm) dim, nm)))

/-- Inner loop of the fuzzy grouping: extend the current run (started at
reference value `start`, accumulated reversed in `acc`) while the next value
is within `tol` of `start`; a gap of at least `tol` closes the run. -/
def fuzzy_groups_aux {α : Type} (tol start : ℚ) (acc : List (ℚ × α)) :
    List (ℚ × α) → List (List (ℚ × α))
  | [] => [acc.reverse]
  | y :: ys =>
    if y.1 - start < tol then fuzzy_groups_aux tol start (y :: acc) ys
    else acc.reverse :: fuzzy_groups_aux tol y.1 [y] ys

/-- Maximal runs of sorted reference values lying within `tol` of each
run's first value: exactly the `fuzzy_start`/`fuzzy_end` ranges of the
source loop (including the tail range). -/
def fuzzy_groups {α : Type} (tol : ℚ) : List (ℚ × α) → List (List (ℚ × α))
  | [] => []
  | x :: xs => fuzzy_groups_aux tol x.1 [x] xs

/-- `panel_order` at `dim = 2`: plain sort, no further fuzzy re-sorting
(`dim + 1 < 3` fails).  An empty name list raises at
`zip(*sorted_couple)`. -/
def order_dim2 {α : Type} [LinearOrder α] (loc : α → Vec3) (names : List α) :
    Except String (List α) :=
  if names.isEmpty then .error "panel_order: cannot unpack empty panel sequence"
  else .ok ((sort_pairs loc 2 names).map Prod.snd)

/-- `panel_order` at `dim = 1`: sort by Y, then re-sort every fuzzy group
of two or more similar values by Z.  A singleton name list reaches the tail
check with the loop variable `fuzzy_end` never assigned
(`UnboundLocalError`). -/
def order_dim1 {α : Type} [LinearOrder α] (tol : ℚ) (loc : α → Vec3) (names : List α) :
    Except String (List α) :=
  if names.isEmpty then .error "panel_order: cannot unpack empty panel sequence"
  else if names.length = 1 then
    .error "panel_order: local variable fuzzy_end referenced before assignment"
  else
    match map_except (fun g : List (ℚ × α) =>
        if 2 ≤ g.length then order_dim2 loc (g.map Prod.snd) else .ok (g.map Prod.snd))
      (fuzzy_groups tol (sort_pairs loc 1 names)) with
    | .ok parts => .ok parts.flatten
    | .error e => .error e

/-- `panel_order` at `dim = 0` (the entry dimension): sort by X, then
re-sort every fuzzy group of two or more similar values by Y (and,
recursively inside, by Z).  The singleton failure is as in `order_dim1`. -/
def order_dim0 {α : Type} [LinearOrder α] (tol : ℚ) (loc : α → Vec3) (names : List α) :
    Except String (List α) :=
  if names.isEmpty then .error "panel_order: cannot unpack empty panel sequence"
  else if names.length = 1 then
    .error "panel_order: local variable fuzzy_end referenced before assignment"
  else
    match map_except (fun g : List (ℚ × α) =>
        if 2 ≤ g.length then order_dim1 tol loc (g.map Prod.snd) else .ok (g.map Prod.snd))
      (fuzzy_groups tol (sort_pairs loc 0 names)) with
    | .ok parts => .ok parts.flatten
    | .error e => .error e

/-- Translation of `BasicPattern.panel_order` (entry point): locations from
`_panel_universal_transtation`, recursion unrolled over `dim = 0, 1, 2`
(the recursion depth is statically bounded by the `dim + 1 < 3` guard). -/
def panel_order (e2m : Euler → Mat3) (tol : ℚ) (panels : List (String × Panel)) :
    Except String (List String) :=
  order_dim0 tol (fun nm => panel_universal_translation e2m (lookup_panel panels nm))
    (panels.map Prod.fst)

/-- Flattened pattern-level edge id of a stitch side in
`pattern_as_tensors`: `panel_id * max_len + new_edge_id`, with the new edge
id read off the encode-time `rotated_edge_ids` map of the side's panel. -/
def flat_edge_id (order : List String)
    (encs : List (List EdgeRow × Euler × Vec3 × List Nat)) (max_len : Nat)
    (side : Side) : Nat :=
  let panel_id := order.indexOf side.1
  let edge_ids := (((order.zip encs).lookup side.1).map (fun enc => enc.2.2.2)).getD []
  panel_id * max_len + edge_ids.getD side.2 0

/-- Translation of `BasicPattern.pattern_as_tensors` (with placement,
stitches and per-panel encodes; the optional stitch-tag output is computed
by `stitches_as_tags` and left out of the tuple).  The panel order is
computed first with the default tolerance 5; pad length is the callers or
the maximum panel edge count; every panel is encoded with that pad length;
each stitch side is flattened to `panel_id * max_len + edge_id`. -/
def pattern_as_tensors (e2m : Euler → Mat3) (s : Spec) (pad_panels_to_len : Option Nat) :
    Except String (List (List EdgeRow) × List Euler × List Vec3 × List (Nat × Nat)) :=
  match panel_order e2m 5 s.pattern.panels with
  | .error e => .error e
  | .ok order =>
    let panel_lens := s.pattern.panels.map (fun pr => pr.2.edges.length)
    let max_len := match pad_panels_to_len with
      | some l => l
      | none => panel_lens.foldl max 0
    match map_except (fun nm =>
        panel_as_numeric e2m (lookup_panel s.pattern.panels nm) (some max_len)) order with
    | .error e => .error e
    | .ok encs =>
      let stitches_indicies := s.pattern.stitches.map (fun st =>
        (flat_edge_id order encs max_len st.1, flat_edge_id order encs max_len st.2))
      .ok (encs.map (fun enc => enc.1), encs.map (fun enc => enc.2.1),
        encs.map (fun enc => enc.2.2.1), stitches_indicies)

/-- Canonicalized vertices of the encoder: shifted vertices re-shifted so
the chosen origin vertex is exactly `(0, 0)`. -/
def canon_verts (v0 : Vec2) (vrest : List Vec2) (i0 : Nat) (irest : List Nat) : List Vec2 :=
  (shifted_verts v0 vrest).map
    (fun v => v - vget (shifted_verts v0 vrest) (argmin_x (shifted_verts v0 vrest) i0 irest))

/-- Total local-origin shift recorded by the encoder. -/
def enc_shift (v0 : Vec2) (vrest : List Vec2) (i0 : Nat) (irest : List Nat) : Vec2 :=
  -vert_min v0 vrest - vget (shifted_verts v0 vrest) (argmin_x (shifted_verts v0 vrest) i0 irest)

/-- The value produced by the success path of `panel_as_numeric` with a pad
length, written as a function of the intermediate match results (`v0 ::
vrest` the vertices, `i0 :: irest` the on-axis ids, `f` the first edge found
at the origin). -/
def panel_as_numeric_ok (e2m : Euler → Mat3) (p : Panel) (len : Nat) (v0 : Vec2)
    (vrest : List Vec2) (i0 : Nat) (irest : List Nat) (f : Nat) :
    List EdgeRow × Euler × Vec3 × List Nat :=
  ((p.edges.drop f ++ p.edges.take f).map (edge_as_vector (canon_verts v0 vrest i0 irest))
      ++ List.replicate (len - p.edges.length) ((0 : Vec2), (0 : Vec2)),
   p.rotation,
   p.translation + -(mat3_mulvec (e2m p.rotation)
     ((enc_shift v0 vrest i0 irest).1, (enc_shift v0 vrest i0 irest).2, 0)),
   (List.range p.edges.length).drop (p.edges.length - f)
     ++ (List.range p.edges.length).take (p.edges.length - f))

end PatternCore

namespace PatternCore

/-! Basic lemmas about the decode walk. -/

theorem rows_sum_nil : rows_sum [] = 0 := rfl

theorem foldl_add_eq (rows : List EdgeRow) : ∀ a : Vec2,
    rows.foldl (fun v r => v + r.1) a = a + rows_sum rows := by
  induction rows with
  | nil => intro a; simp [rows_sum]
  | cons r rs ih =>
    intro a
    have h1 : rows_sum (r :: rs) = r.1 + rows_sum rs := by
      simp only [rows_sum, List.foldl_cons, zero_add]
      exact ih r.1
    simp only [List.foldl_cons]
    rw [ih (a + r.1), h1, add_assoc]

theorem rows_sum_cons (r : EdgeRow) (rs : List EdgeRow) :
    rows_sum (r :: rs) = r.1 + rows_sum rs := by
  simp only [rows_sum, List.foldl_cons, zero_add]
  exact foldl_add_eq rs r.1

theorem rows_sum_concat (l : List EdgeRow) (r : EdgeRow) :
    rows_sum (l ++ [r]) = rows_sum l + r.1 := by
  simp only [rows_sum, List.foldl_append, List.foldl_cons, List.foldl_nil]

theorem walk_verts_length (v : Vec2) (rows : List EdgeRow) :
    (walk_verts v rows).length = rows.length + 1 := by
  induction rows generalizing v with
  | nil => rfl
  | cons r rs ih => simp [walk_verts, ih]

theorem walk_verts_getLastD (v d : Vec2) (rows : List EdgeRow) :
    (walk_verts v rows).getLastD d = v + rows_sum rows := by
  induction rows generalizing v d with
  | nil => simp [walk_verts, rows_sum]
  | cons r rs ih =>
    simp only [walk_verts, List.getLastD_cons]
    rw [ih, rows_sum_cons, add_assoc]

theorem getLastD_of_ne_nil {α : Type} (l : List α) (d : α) (h : l ≠ []) :
    l.getLastD d = l.getLast h := by
  rw [List.getLastD_eq_getLast?, List.getLast?_eq_getLast l h, Option.getD_some]

/-- The final cumulative position tested by the closure check equals the sum
of all edge vectors of the row list. -/
theorem fin_vert_eq (rows : List EdgeRow) (h : rows ≠ []) :
    (walk_verts 0 rows.dropLast).getLastD 0 + (rows.getLastD ((0 : Vec2), (0 : Vec2))).1
      = rows_sum rows := by
  conv_rhs => rw [← List.dropLast_concat_getLast h]
  rw [rows_sum_concat, walk_verts_getLastD, zero_add,
    getLastD_of_ne_nil rows ((0 : Vec2), (0 : Vec2)) h]

end PatternCore

namespace PatternCore

/-- Claim C3 (amended: the input must be nonempty; `panel_from_numeric` raises
an `IndexError` on an empty edge sequence).  For every nonempty edge-sequence
input (unpadded decode path): when the cumulative sum of the edge XY-offsets
returns to `(0,0)` within the closeness tolerance, the decoded panel's last
edge closes the loop back to vertex `0` and the panel has exactly as many
vertices as edges, with no warning; otherwise decoding still succeeds,
exactly one extra vertex is appended at the discrepancy point (the cumulative
sum), the last edge ends at that extra vertex, and a warning is emitted.
Decode never fails for nonempty non-closing input. -/
theorem decode_loop_closure (base : Panel) (rows : List EdgeRow)
    (rot : Option Euler) (tr : Option Vec3) (hne : rows ≠ []) :
    ∃ q w, panel_from_numeric base rows rot tr false = .ok (q, w) ∧
      q.edges.length = rows.length ∧
      ((|(rows_sum rows).1| ≤ np_atol ∧ |(rows_sum rows).2| ≤ np_atol) →
        q.vertices.length = rows.length ∧
        (q.edges.getLastD ⟨(0, 0), none⟩).endpoints = (rows.length - 1, 0) ∧ w = false) ∧
      (¬(|(rows_sum rows).1| ≤ np_atol ∧ |(rows_sum rows).2| ≤ np_atol) →
        q.vertices.length = rows.length + 1 ∧
        q.vertices.getLastD 0 = rows_sum rows ∧
        (q.edges.getLastD ⟨(0, 0), none⟩).endpoints = (rows.length - 1, rows.length) ∧
        w = true) := by
  obtain ⟨r, rs, rfl⟩ := List.exists_cons_of_ne_nil hne
  have hfin := fin_vert_eq (r :: rs) hne
  unfold panel_from_numeric
  simp only [Bool.false_eq_true, if_false, hfin]
  by_cases hc : |(rows_sum (r :: rs)).1| ≤ np_atol ∧ |(rows_sum (r :: rs)).2| ≤ np_atol
  · rw [if_pos hc]
    refine ⟨_, _, rfl, ?_, fun _ => ⟨?_, ?_, rfl⟩, fun hnc => absurd hc hnc⟩
    · simp [List.length_zipWith, List.length_dropLast]
    · rw [walk_verts_length, List.length_dropLast]
      simp only [List.length_cons]
      omega
    · rw [List.getLastD_concat, edge_dict]
  · rw [if_neg hc]
    refine ⟨_, _, rfl, ?_, fun hcc => absurd hcc hc, fun _ => ⟨?_, ?_, ?_, rfl⟩⟩
    · simp [List.length_zipWith, List.length_dropLast]
    · simp only [List.length_append, List.length_singleton]
      rw [walk_verts_length, List.length_dropLast]
      simp only [List.length_cons]
      omega
    · rw [List.getLastD_concat]
    · rw [List.getLastD_concat, edge_dict]

/-- Witness for `decode_loop_closure` at the concrete closing input
`[((10,0),(0,0)), ((-10,0),(0,0))]`. -/
theorem decode_loop_closure_witness :
    ∃ q w, panel_from_numeric {} [((10, 0), (0, 0)), ((-10, 0), (0, 0))] none none false
        = .ok (q, w) ∧
      q.edges.length = ([((10, 0), (0, 0)), ((-10, 0), (0, 0))] : List EdgeRow).length ∧
      ((|(rows_sum [((10, 0), (0, 0)), ((-10, 0), (0, 0))]).1| ≤ np_atol ∧
        |(rows_sum [((10, 0), (0, 0)), ((-10, 0), (0, 0))]).2| ≤ np_atol) →
        q.vertices.length = ([((10, 0), (0, 0)), ((-10, 0), (0, 0))] : List EdgeRow).length ∧
        (q.edges.getLastD ⟨(0, 0), none⟩).endpoints
          = (([((10, 0), (0, 0)), ((-10, 0), (0, 0))] : List EdgeRow).length - 1, 0) ∧
        w = false) ∧
      (¬(|(rows_sum [((10, 0), (0, 0)), ((-10, 0), (0, 0))]).1| ≤ np_atol ∧
         |(rows_sum [((10, 0), (0, 0)), ((-10, 0), (0, 0))]).2| ≤ np_atol) →
        q.vertices.length = ([((10, 0), (0, 0)), ((-10, 0), (0, 0))] : List EdgeRow).length + 1 ∧
        q.vertices.getLastD 0 = rows_sum [((10, 0), (0, 0)), ((-10, 0), (0, 0))] ∧
        (q.edges.getLastD ⟨(0, 0), none⟩).endpoints
          = (([((10, 0), (0, 0)), ((-10, 0), (0, 0))] : List EdgeRow).length - 1,
             ([((10, 0), (0, 0)), ((-10, 0), (0, 0))] : List EdgeRow).length) ∧
        w = true) :=
  decode_loop_closure {} [((10, 0), (0, 0)), ((-10, 0), (0, 0))] none none
    (List.cons_ne_nil _ _)

/-- Counterexample for claim C3 as stated: on the empty edge-sequence input
the cumulative sum trivially returns to `(0,0)`, yet decoding does not
produce a panel with as many vertices as edges -- it fails (the source
raises `IndexError` on `edge_sequence[-1]`). -/
theorem decode_empty_input_errors :
    panel_from_numeric {} [] none none false
      = .error "panel_from_numeric: index -1 is out of bounds" := rfl

/-- Counterexample for claim C2 as stated: in the input below the middle row
`((1,1),(0,0))` is an interior row (a later row, `((-10,0),(0,0))`, is kept)
whose components are all within the pad tolerance 1.5; the claim says every
non-trailing row is kept, which would give a decoded panel with 3 edges, but
the row is removed and the decoded panel has only the 2 edges shown. -/
theorem pad_filter_interior_row_counterexample :
    panel_from_numeric {} [((10, 0), (0, 0)), ((1, 1), (0, 0)), ((-10, 0), (0, 0))]
        none none true
      = .ok ({ vertices := [(0, 0), (10, 0)],
               edges := [{ endpoints := (0, 1) }, { endpoints := (1, 0) }] }, false)
    ∧ keep_row ((1, 1), (0, 0)) = false
    ∧ keep_row ((-10, 0), (0, 0)) = true := by
  norm_num [panel_from_numeric, keep_row, List.filter, walk_verts, edge_dict, np_atol, pad_atol,
    rows_sum, Prod.ext_iff, List.range_succ, List.zipWith]

/-- Claim C2 (amended): when `panel_from_numeric` is called with
`padded=True`, the rows removed before reconstruction are exactly ALL rows --
trailing or not -- whose four components are each within absolute tolerance
1.5 of the zero pad vector; an interior all-near-zero row (a genuine short
edge) is removed as well, not kept.  Decoding a padded sequence equals
decoding the filtered sequence unpadded, and `keep_row` discards precisely
the near-zero rows. -/
theorem pad_filter_removes_all_near_zero_rows :
    ∀ (base : Panel) (rows : List EdgeRow) (rot : Option Euler) (tr : Option Vec3),
      panel_from_numeric base rows rot tr true
        = panel_from_numeric base (rows.filter keep_row) rot tr false
    ∧ ∀ r : EdgeRow, (keep_row r = false ↔
        (|r.1.1| ≤ pad_atol ∧ |r.1.2| ≤ pad_atol ∧ |r.2.1| ≤ pad_atol ∧ |r.2.2| ≤ pad_atol)) := by
  intro base rows rot tr
  refine ⟨rfl, fun r => ?_⟩
  simp only [keep_row, Bool.not_eq_false', Bool.and_eq_true, decide_eq_true_eq, and_assoc]

end PatternCore

namespace PatternCore

theorem ccw_point_eq_start (a b : Vec2) : ccw a b a = 0 := by
  simp only [ccw]; ring


theorem ccw_point_eq_end (a b : Vec2) : ccw a b b = 0 := by
  simp only [ccw]; ring


/-- Claim C7: `_is_panel_self_intersecting` implements the strict-CCW
pairwise criterion.  Two straight segments count as intersecting iff for
each segment the two endpoints of the other lie on strictly opposite sides
(both CCW products strictly negative); segments sharing an endpoint, or
collinear ones, are non-intersecting.  Consequently the convex square panel
of 4 straight edges reports not self-intersecting and the bowtie panel,
whose edges cross at an interior point, reports self-intersecting. -/
theorem segment_intersection_strict_ccw :
    (∀ s1 s2 : Segment, is_segm_intersecting s1 s2 = true ↔
        (ccw s1.1 s1.2 s2.1 * ccw s1.1 s1.2 s2.2 < 0 ∧
         ccw s2.1 s2.2 s1.1 * ccw s2.1 s2.2 s1.2 < 0))
    ∧ (∀ a b c d : Vec2, (a = c ∨ a = d ∨ b = c ∨ b = d) →
        is_segm_intersecting (a, b) (c, d) = false)
    ∧ (∀ a b c d : Vec2, ccw a b c = 0 → ccw a b d = 0 →
        is_segm_intersecting (a, b) (c, d) = false)
    ∧ is_panel_self_intersecting square_panel = false
    ∧ is_panel_self_intersecting bowtie_panel = true := by
  refine ⟨?_, ?_, ?_, ?_, ?_⟩
  · intro s1 s2
    simp only [is_segm_intersecting]
    split
    case isTrue h =>
      simp only [Bool.false_eq_true, false_iff, not_and_or, not_lt]
      exact h
    case isFalse h =>
      push_neg at h
      simpa using h
  · intro a b c d hsh
    simp only [is_segm_intersecting]
    rw [if_pos]
    rcases hsh with rfl | rfl | rfl | rfl
    · exact Or.inr (ge_of_eq (by rw [ccw_point_eq_start, zero_mul]))
    · exact Or.inr (ge_of_eq (by rw [ccw_point_eq_end, zero_mul]))
    · exact Or.inl (ge_of_eq (by rw [ccw_point_eq_end, zero_mul]))
    · exact Or.inl (ge_of_eq (by rw [ccw_point_eq_end, mul_zero]))
  · intro a b c d h1 h2
    simp only [is_segm_intersecting]
    rw [if_pos (Or.inl (ge_of_eq (by rw [h1, zero_mul])))]
  · norm_num [is_panel_self_intersecting, panel_segments, any_pair_intersecting,
      is_segm_intersecting, ccw, square_panel, vget, List.flatMap, List.any]
  · norm_num [is_panel_self_intersecting, panel_segments, any_pair_intersecting,
      is_segm_intersecting, ccw, bowtie_panel, vget, List.flatMap, List.any]

/-- Witness for `segment_intersection_strict_ccw` at two concrete segments
sharing the endpoint `(0,0)`. -/
theorem segment_intersection_strict_ccw_witness :
    is_segm_intersecting ((0, 0), (1, 0)) ((0, 0), (0, 1)) = false :=
  segment_intersection_strict_ccw.2.1 (0, 0) (1, 0) (0, 0) (0, 1) (Or.inl rfl)


/-- Claim C8: inverting a multiplicative parameter value numerically close
to zero (`np.isclose`, i.e. within 1e-8) -- the scalar itself or any list
element -- raises the fatal `ZeroDivisionError` rather than returning a
result; for values bounded away from zero `_invert_value` returns the exact
multiplicative inverse `1/value` per component. -/
theorem invert_value_zero_fatal_exact_inverse :
    (∀ v : ℚ, |v| ≤ np_atol →
        invert_value (.inl v) true
          = .error "Zero value encountered while restoring multiplicative parameter.")
    ∧ (∀ v : ℚ, ¬|v| ≤ np_atol → invert_value (.inl v) true = .ok (.inl (1 / v)))
    ∧ (∀ l : List ℚ, (∃ x ∈ l, |x| ≤ np_atol) →
        invert_value (.inr l) true
          = .error "Zero value encountered while restoring multiplicative parameter.")
    ∧ (∀ l : List ℚ, (∀ x ∈ l, ¬|x| ≤ np_atol) →
        invert_value (.inr l) true = .ok (.inr (l.map (fun x => 1 / x)))) := by
  refine ⟨fun v hv => ?_, fun v hv => ?_, fun l hl => ?_, fun l hl => ?_⟩
  · simp [invert_value, hv]
  · simp [invert_value, hv]
  · have : l.any (fun x => decide (|x| ≤ np_atol)) = true := by
      rw [List.any_eq_true]
      obtain ⟨x, hx, hxa⟩ := hl
      exact ⟨x, hx, by simpa using hxa⟩
    simp [invert_value, this]
  · have : l.any (fun x => decide (|x| ≤ np_atol)) = false := by
      rw [Bool.eq_false_iff]
      intro hc
      rw [List.any_eq_true] at hc
      obtain ⟨x, hx, hxa⟩ := hc
      exact hl x hx (by simpa using hxa)
    simp [invert_value, this]


/-- Witness for `invert_value_zero_fatal_exact_inverse` at the scalar
values `0` and `2` and the lists `[3, 0]` and `[4]`. -/
theorem invert_value_zero_fatal_exact_inverse_witness :
    (invert_value (.inl 0) true
        = .error "Zero value encountered while restoring multiplicative parameter.")
    ∧ invert_value (.inl 2) true = .ok (.inl (1 / 2))
    ∧ (invert_value (.inr [3, 0]) true
        = .error "Zero value encountered while restoring multiplicative parameter.")
    ∧ invert_value (.inr [4]) true = .ok (.inr ([4].map (fun x => 1 / x))) := by
  refine ⟨invert_value_zero_fatal_exact_inverse.1 0 (by norm_num [np_atol]), ?_, ?_, ?_⟩
  · have h := invert_value_zero_fatal_exact_inverse.2.1 2 (by norm_num [np_atol])
    simpa using h
  · exact invert_value_zero_fatal_exact_inverse.2.2.1 [3, 0]
      ⟨0, by norm_num, by norm_num [np_atol]⟩
  · exact invert_value_zero_fatal_exact_inverse.2.2.2 [4]
      (by intro x hx; simp at hx; subst hx; norm_num [np_atol])

theorem vget_set_self (vs : List Vec2) (i : Nat) (x : Vec2) (h : i < vs.length) :
    vget (vs.set i x) i = x := by
  rw [vget, List.getD_eq_getElem?_getD, List.getElem?_set_self h, Option.getD_some]


theorem vget_set_ne (vs : List Vec2) (i j : Nat) (x : Vec2) (h : i ≠ j) :
    vget (vs.set i x) j = vget vs j := by
  rw [vget, List.getD_eq_getElem?_getD, List.getElem?_set_ne h,
    ← List.getD_eq_getElem?_getD, vget]


theorem extend_edge_meta (p : Panel) (a b e : Nat) (inf : EdgeInfluence)
    (hid : inf.id = Sum.inl e) (halong : inf.along = none)
    (hend : (p.edges.getD e ⟨(0, 0), none⟩).endpoints = (a, b))
    (hnz : ¬ sqnorm2 (vget p.vertices b - vget p.vertices a) ≤ np_atol ^ 2) :
    meta_edge p inf = .ok ([a, b], [vget p.vertices a, vget p.vertices b],
      vget p.vertices b - vget p.vertices a,
      sqnorm2 (vget p.vertices b - vget p.vertices a)) := by
  have hend2 : (p.edges[e]?.getD (⟨(0, 0), none⟩ : Edge)).endpoints = (a, b) := by
    rw [← List.getD_eq_getElem?_getD]; exact hend
  simp only [Prod.mk_zero_zero] at hend2
  simp [meta_edge, hid, halong, hend2, hnz]


theorem extend_edge_single_start (p : Panel) (a b e : Nat) (inf : EdgeInfluence)
    (hid : inf.id = Sum.inl e) (hdir : inf.direction = "start") (halong : inf.along = none)
    (hend : (p.edges.getD e ⟨(0, 0), none⟩).endpoints = (a, b))
    (hnz : ¬ sqnorm2 (vget p.vertices b - vget p.vertices a) ≤ np_atol ^ 2)
    (value : ℚ) :
    extend_edge p inf value
      = .ok (Panel.mk
          ((p.vertices.set a (vget p.vertices a
              + (1 - value) • (vget p.vertices b - vget p.vertices a))).set b
            (vget p.vertices b))
          p.edges p.rotation p.translation) := by
  have hm := extend_edge_meta p a b e inf hid halong hend hnz
  have hnz0 : sqnorm2 (vget p.vertices b - vget p.vertices a) ≠ 0 := by
    intro h0
    exact hnz (by rw [h0]; positivity)
  rw [extend_edge, hm, hdir]
  have hcoefa :
      ((vget p.vertices a - vget p.vertices b).1 * (vget p.vertices b - vget p.vertices a).1
        + (vget p.vertices a - vget p.vertices b).2 * (vget p.vertices b - vget p.vertices a).2)
        / sqnorm2 (vget p.vertices b - vget p.vertices a) = -1 := by
    rw [div_eq_iff hnz0]
    simp only [sqnorm2, Prod.fst_sub, Prod.snd_sub]
    ring
  simp only [List.headD_cons, List.getLastD_cons, List.map_cons,
     List.map_nil, List.zip_cons_cons, List.zip_nil_right, List.foldl_cons, List.foldl_nil,
    List.getLastD_nil,
    String.reduceEq, if_false, if_true, reduceIte, hcoefa]
  congr 3
  · congr 1
    module
  · simp

theorem sqnorm2_smul (c : ℚ) (v : Vec2) : sqnorm2 (c • v) = c ^ 2 * sqnorm2 v := by
  simp only [sqnorm2, Prod.smul_fst, Prod.smul_snd, smul_eq_mul]
  ring


/-- Claim C5: applying a `length` parameter value `2.0` to a single
straight 10-unit edge (squared length 100) with direction `"start"` via
`_extend_edge` in multiplicative mode doubles that edge's length to 20
units (squared length 400 = 4 x 100) while leaving the edge's end vertex
unchanged; subsequently applying the multiplicative inverse value `0.5`
restores every original vertex position and the original 10-unit length
exactly (a fortiori within 1e-6). -/
theorem extend_edge_double_and_invert (p : Panel) (a b e : Nat) (inf : EdgeInfluence)
    (hid : inf.id = Sum.inl e) (hdir : inf.direction = "start") (halong : inf.along = none)
    (hend : (p.edges.getD e ⟨(0, 0), none⟩).endpoints = (a, b))
    (ha : a < p.vertices.length) (hb : b < p.vertices.length) (hab : a ≠ b)
    (h100 : sqnorm2 (vget p.vertices b - vget p.vertices a) = 100) :
    ∃ p2 p3,
      extend_edge p inf 2 = .ok p2 ∧
      vget p2.vertices b = vget p.vertices b ∧
      sqnorm2 (vget p2.vertices b - vget p2.vertices a)
        = 4 * sqnorm2 (vget p.vertices b - vget p.vertices a) ∧
      sqnorm2 (vget p2.vertices b - vget p2.vertices a) = 400 ∧
      extend_edge p2 inf (1 / 2) = .ok p3 ∧
      (∀ i, vget p3.vertices i = vget p.vertices i) ∧
      sqnorm2 (vget p3.vertices b - vget p3.vertices a) = 100 := by
  have hnz : ¬ sqnorm2 (vget p.vertices b - vget p.vertices a) ≤ np_atol ^ 2 := by
    rw [h100]; norm_num [np_atol]
  have h2 := extend_edge_single_start p a b e inf hid hdir halong hend hnz 2
  set p2 : Panel := Panel.mk
      ((p.vertices.set a (vget p.vertices a
          + ((1 : ℚ) - 2) • (vget p.vertices b - vget p.vertices a))).set b
        (vget p.vertices b))
      p.edges p.rotation p.translation with hp2
  have hlen2a : (p.vertices.set a (vget p.vertices a
      + ((1 : ℚ) - 2) • (vget p.vertices b - vget p.vertices a))).length = p.vertices.length :=
    List.length_set _ _ _
  have hvb2 : vget p2.vertices b = vget p.vertices b := by
    rw [hp2]
    exact vget_set_self _ b _ (by rw [hlen2a]; exact hb)
  have hva2 : vget p2.vertices a = vget p.vertices a
      + ((1 : ℚ) - 2) • (vget p.vertices b - vget p.vertices a) := by
    rw [hp2]
    show vget ((p.vertices.set a _).set b _) a = _
    rw [vget_set_ne _ b a _ (Ne.symm hab)]
    exact vget_set_self _ a _ ha
  have hdiff2 : vget p2.vertices b - vget p2.vertices a
      = (2 : ℚ) • (vget p.vertices b - vget p.vertices a) := by
    rw [hvb2, hva2]
    refine Prod.ext ?_ ?_ <;>
      simp only [Prod.fst_sub, Prod.snd_sub, Prod.fst_add, Prod.snd_add,
        Prod.smul_fst, Prod.smul_snd, smul_eq_mul] <;>
      ring
  have hsq2 : sqnorm2 (vget p2.vertices b - vget p2.vertices a)
      = 4 * sqnorm2 (vget p.vertices b - vget p.vertices a) := by
    rw [hdiff2, sqnorm2_smul]
    norm_num
  have hsq400 : sqnorm2 (vget p2.vertices b - vget p2.vertices a) = 400 := by
    rw [hsq2, h100]; norm_num
  have hend2 : (p2.edges.getD e ⟨(0, 0), none⟩).endpoints = (a, b) := hend
  have hnz2 : ¬ sqnorm2 (vget p2.vertices b - vget p2.vertices a) ≤ np_atol ^ 2 := by
    rw [hsq400]; norm_num [np_atol]
  have h3 := extend_edge_single_start p2 a b e inf hid hdir halong hend2 hnz2 (1 / 2)
  set p3 : Panel := Panel.mk
      ((p2.vertices.set a (vget p2.vertices a
          + ((1 : ℚ) - 1 / 2) • (vget p2.vertices b - vget p2.vertices a))).set b
        (vget p2.vertices b))
      p2.edges p2.rotation p2.translation with hp3
  have hlen3a : (p2.vertices.set a (vget p2.vertices a
      + ((1 : ℚ) - 1 / 2) • (vget p2.vertices b - vget p2.vertices a))).length
        = p2.vertices.length := List.length_set _ _ _
  have hlenp2 : p2.vertices.length = p.vertices.length := by
    rw [hp2]
    show ((p.vertices.set a _).set b _).length = _
    rw [List.length_set, List.length_set]
  have hva3 : vget p3.vertices a = vget p.vertices a := by
    rw [hp3]
    show vget ((p2.vertices.set a _).set b _) a = _
    rw [vget_set_ne _ b a _ (Ne.symm hab),
      vget_set_self _ a _ (by rw [hlenp2]; exact ha), hva2, hvb2]
    refine Prod.ext ?_ ?_ <;>
      simp only [Prod.fst_sub, Prod.snd_sub, Prod.fst_add, Prod.snd_add,
        Prod.smul_fst, Prod.smul_snd, smul_eq_mul] <;>
      ring
  have hvb3 : vget p3.vertices b = vget p.vertices b := by
    rw [hp3]
    rw [show vget ((p2.vertices.set a _).set b (vget p2.vertices b)) b
        = vget p2.vertices b from
      vget_set_self _ b _ (by rw [hlen3a, hlenp2]; exact hb)]
    exact hvb2
  have hall : ∀ i, vget p3.vertices i = vget p.vertices i := by
    intro i
    by_cases hia : i = a
    · rw [hia]; exact hva3
    · by_cases hib : i = b
      · rw [hib]; exact hvb3
      · rw [hp3]
        show vget ((p2.vertices.set a _).set b _) i = _
        rw [vget_set_ne _ b i _ (fun hh => hib hh.symm),
          vget_set_ne _ a i _ (fun hh => hia hh.symm), hp2]
        show vget ((p.vertices.set a _).set b _) i = _
        rw [vget_set_ne _ b i _ (fun hh => hib hh.symm),
          vget_set_ne _ a i _ (fun hh => hia hh.symm)]
  refine ⟨p2, p3, h2, hvb2, hsq2, hsq400, h3, hall, ?_⟩
  rw [hall b, hall a, h100]

/-- Witness for `extend_edge_double_and_invert` on the concrete one-edge
panel with vertices `(0,0)` and `(10,0)`. -/
theorem extend_edge_double_and_invert_witness :
    ∃ p2 p3,
      extend_edge ⟨[(0, 0), (10, 0)], [⟨(0, 1), none⟩], 0, 0⟩
          ⟨.inl 0, "start", none, none, none⟩ 2 = .ok p2 ∧
      vget p2.vertices 1 = vget [((0 : ℚ), (0 : ℚ)), (10, 0)] 1 ∧
      sqnorm2 (vget p2.vertices 1 - vget p2.vertices 0)
        = 4 * sqnorm2 (vget [((0 : ℚ), (0 : ℚ)), (10, 0)] 1
            - vget [((0 : ℚ), (0 : ℚ)), (10, 0)] 0) ∧
      sqnorm2 (vget p2.vertices 1 - vget p2.vertices 0) = 400 ∧
      extend_edge p2 ⟨.inl 0, "start", none, none, none⟩ (1 / 2) = .ok p3 ∧
      (∀ i, vget p3.vertices i = vget [((0 : ℚ), (0 : ℚ)), (10, 0)] i) ∧
      sqnorm2 (vget p3.vertices 1 - vget p3.vertices 0) = 100 :=
  extend_edge_double_and_invert ⟨[(0, 0), (10, 0)], [⟨(0, 1), none⟩], 0, 0⟩ 0 1 0
    ⟨.inl 0, "start", none, none, none⟩ rfl rfl rfl rfl
    (by norm_num) (by norm_num) (by norm_num)
    (by norm_num [sqnorm2, vget, Prod.fst_sub, Prod.snd_sub])

end PatternCore

namespace PatternCore

theorem getD_set_self {α : Type} (l : List α) (i : Nat) (x d : α) (h : i < l.length) :
    (l.set i x).getD i d = x := by
  rw [List.getD_eq_getElem?_getD, List.getElem?_set_self h, Option.getD_some]

theorem getD_set_ne {α : Type} (l : List α) (i j : Nat) (x d : α) (h : i ≠ j) :
    (l.set i x).getD j d = l.getD j d := by
  rw [List.getD_eq_getElem?_getD, List.getElem?_set_ne h, ← List.getD_eq_getElem?_getD]

theorem lookup_map_if (panels : List (String × Panel)) (f : Panel → Panel)
    (name s : String) :
    (panels.map (fun pr => if pr.1 = name then (pr.1, f pr.2) else pr)).lookup s
      = if s = name then (panels.lookup s).map f else panels.lookup s := by
  induction panels with
  | nil => simp [List.lookup]
  | cons hd tl ih =>
    obtain ⟨k, v⟩ := hd
    by_cases hk : k = name
    · subst hk
      by_cases hs : s = k
      · subst hs
        simp [List.lookup_cons, List.map_cons, beq_iff_eq]
      · have hb : (s == k) = false := beq_eq_false_iff_ne.mpr hs
        simp [List.lookup_cons, List.map_cons, hb, hs, ih]
    · by_cases hs : s = k
      · subst hs
        simp [List.lookup_cons, List.map_cons, beq_iff_eq, hk]
      · have hb : (s == k) = false := beq_eq_false_iff_ne.mpr hs
        simp [List.lookup_cons, List.map_cons, hb, hk, hs, ih]

theorem lookup_panel_map_if (panels : List (String × Panel)) (f : Panel → Panel)
    (name s : String) (hf : f {} = {}) :
    lookup_panel (panels.map (fun pr => if pr.1 = name then (pr.1, f pr.2) else pr)) s
      = if s = name then f (lookup_panel panels s) else lookup_panel panels s := by
  rw [lookup_panel, lookup_map_if]
  by_cases hs : s = name
  · rw [if_pos hs, if_pos hs, lookup_panel]
    cases panels.lookup s with
    | none => simpa using hf.symm
    | some p => simp
  · rw [if_neg hs, if_neg hs, lookup_panel]

theorem reverse_edge_empty (i : Nat) : reverse_edge {} i = {} := by
  simp [reverse_edge, swap_edge]

theorem side_tag_reverse (e2m : Euler → Mat3) (panels : List (String × Panel))
    (name : String) (i : Nat) (s : Side) :
    side_tag e2m (reverse_edge_in panels name i) s = side_tag e2m panels s := by
  simp only [side_tag, reverse_edge_in]
  rw [lookup_panel_map_if panels (fun p => reverse_edge p i) name s.1 (reverse_edge_empty i)]
  by_cases hs : s.1 = name
  · rw [if_pos hs]
    show point_in_3D _ (e2m (reverse_edge (lookup_panel panels s.1) i).rotation)
        (reverse_edge (lookup_panel panels s.1) i).translation = _
    have hvr : (reverse_edge (lookup_panel panels s.1) i).vertices
        = (lookup_panel panels s.1).vertices := rfl
    have hrot : (reverse_edge (lookup_panel panels s.1) i).rotation
        = (lookup_panel panels s.1).rotation := rfl
    have htr : (reverse_edge (lookup_panel panels s.1) i).translation
        = (lookup_panel panels s.1).translation := rfl
    rw [hvr, hrot, htr]
    by_cases hij : i = s.2
    · rw [← hij]
      by_cases hlen : i < (lookup_panel panels s.1).edges.length
      · have he : (reverse_edge (lookup_panel panels s.1) i).edges.getD i ⟨(0, 0), none⟩
            = swap_edge ((lookup_panel panels s.1).edges.getD i ⟨(0, 0), none⟩) := by
          rw [reverse_edge]
          exact getD_set_self _ i _ _ hlen
        rw [he, swap_edge]
        rw [add_comm (vget (lookup_panel panels s.1).vertices _)]
      · have he : (reverse_edge (lookup_panel panels s.1) i).edges
            = (lookup_panel panels s.1).edges :=
          List.set_eq_of_length_le (by omega)
        rw [he]
    · have he : (reverse_edge (lookup_panel panels s.1) i).edges.getD s.2 ⟨(0, 0), none⟩
          = (lookup_panel panels s.1).edges.getD s.2 ⟨(0, 0), none⟩ := by
        rw [reverse_edge]
        exact getD_set_ne _ i s.2 _ _ hij
      rw [he]
  · rw [if_neg hs]

theorem dot3_add_right (a x y : Vec3) : dot3 a (x + y) = dot3 a x + dot3 a y := by
  simp only [dot3, Prod.fst_add, Prod.snd_add]
  ring

theorem mat3_mulvec_add (m : Mat3) (x y : Vec3) :
    mat3_mulvec m (x + y) = mat3_mulvec m x + mat3_mulvec m y := by
  simp only [mat3_mulvec, dot3_add_right, Prod.mk_add_mk]

theorem to3_add (x y : Vec2) : to3 (x + y) = to3 x + to3 y := by
  simp [to3, Prod.mk_add_mk]

theorem point_in_3D_shift (m d : Vec2) (R : Mat3) (T : Vec3) :
    point_in_3D (m + d) R (T - mat3_mulvec R (to3 d)) = point_in_3D m R T := by
  simp only [point_in_3D, to3_add, mat3_mulvec_add]
  abel

theorem vget_map_add (vs : List Vec2) (d : Vec2) (j : Nat) (h : j < vs.length) :
    vget (vs.map (fun v => v + d)) j = vget vs j + d := by
  simp only [vget]
  rw [List.getD_eq_getElem (vs.map (fun v => v + d)) 0 (by simpa using h),
    List.getD_eq_getElem vs 0 h, List.getElem_map]

theorem side_tag_relocate (e2m : Euler → Mat3) (panels : List (String × Panel))
    (name : String) (d : Vec2) (s : Side) (hok : side_ok panels s) :
    side_tag e2m (relocate_panel e2m panels name d) s = side_tag e2m panels s := by
  simp only [side_tag, relocate_panel, lookup_panel]
  rw [lookup_map_if panels (fun p => relocate e2m p d) name s.1]
  by_cases hs : s.1 = name
  · rw [if_pos hs]
    cases hlk : panels.lookup s.1 with
    | none => simp [hlk]
    | some p =>
      simp only [hlk, Option.map_some', Option.getD_some]
      simp only [side_ok, lookup_panel, hlk, Option.getD_some] at hok
      obtain ⟨h1, h2⟩ := hok
      have hrot : (relocate e2m p d).rotation = p.rotation := rfl
      have hed : (relocate e2m p d).edges = p.edges := rfl
      have htr : (relocate e2m p d).translation
          = p.translation - mat3_mulvec (e2m p.rotation) (to3 d) := rfl
      show point_in_3D _ (e2m (relocate e2m p d).rotation) (relocate e2m p d).translation = _
      rw [hrot, hed, htr]
      have hv1 : vget (relocate e2m p d).vertices
          (p.edges.getD s.2 ⟨(0, 0), none⟩).endpoints.1
          = vget p.vertices (p.edges.getD s.2 ⟨(0, 0), none⟩).endpoints.1 + d :=
        vget_map_add _ d _ h1
      have hv2 : vget (relocate e2m p d).vertices
          (p.edges.getD s.2 ⟨(0, 0), none⟩).endpoints.2
          = vget p.vertices (p.edges.getD s.2 ⟨(0, 0), none⟩).endpoints.2 + d :=
        vget_map_add _ d _ h2
      rw [hv1, hv2]
      have hmean : ((1 : ℚ) / 2) •
          ((vget p.vertices (p.edges.getD s.2 ⟨(0, 0), none⟩).endpoints.1 + d)
            + (vget p.vertices (p.edges.getD s.2 ⟨(0, 0), none⟩).endpoints.2 + d))
          = ((1 : ℚ) / 2) •
            (vget p.vertices (p.edges.getD s.2 ⟨(0, 0), none⟩).endpoints.1
              + vget p.vertices (p.edges.getD s.2 ⟨(0, 0), none⟩).endpoints.2) + d := by
        refine Prod.ext ?_ ?_ <;>
          simp only [Prod.fst_add, Prod.snd_add, Prod.smul_fst, Prod.smul_snd, smul_eq_mul] <;>
          ring
      rw [hmean, point_in_3D_shift]
  · rw [if_neg hs]

/-- Claim C6: the tag computed by `stitches_as_tags` for a stitch is
symmetric in the stitch's two sides -- swapping side A and side B yields the
identical tag vector -- and depends only on each edge's global 3D geometric
midpoint: it is unchanged by reversing an edge's endpoint order and by
relocating a panel's local origin with the compensating translation that
preserves world placement (for sides whose edge endpoints are valid vertex
indices). -/
theorem stitch_tag_symmetric_invariant :
    (∀ (e2m : Euler → Mat3) (panels : List (String × Panel)) (st : Stitch),
        stitch_tag e2m panels (st.2, st.1) = stitch_tag e2m panels st)
    ∧ (∀ (e2m : Euler → Mat3) (panels : List (String × Panel)) (name : String) (i : Nat)
        (st : Stitch),
        stitch_tag e2m (reverse_edge_in panels name i) st = stitch_tag e2m panels st)
    ∧ (∀ (e2m : Euler → Mat3) (panels : List (String × Panel)) (name : String) (d : Vec2)
        (st : Stitch), side_ok panels st.1 → side_ok panels st.2 →
        stitch_tag e2m (relocate_panel e2m panels name d) st = stitch_tag e2m panels st) := by
  refine ⟨?_, ?_, ?_⟩
  · intro e2m panels st
    simp only [stitch_tag]
    rw [add_comm]
  · intro e2m panels name i st
    simp only [stitch_tag, side_tag_reverse]
  · intro e2m panels name d st h1 h2
    simp only [stitch_tag, side_tag_relocate e2m panels name d st.1 h1,
      side_tag_relocate e2m panels name d st.2 h2]


/-- Witness for `stitch_tag_symmetric_invariant` (relocation part) on a
concrete one-panel pattern, with the identity matrix as the rotation
conversion and origin shift `(3,4)`. -/
theorem stitch_tag_symmetric_invariant_witness :
    stitch_tag (fun _ => ((1, 0, 0), (0, 1, 0), (0, 0, 1)))
        (relocate_panel (fun _ => ((1, 0, 0), (0, 1, 0), (0, 0, 1)))
          [("front", square_panel)] "front" (3, 4))
        (("front", 0), ("front", 2))
      = stitch_tag (fun _ => ((1, 0, 0), (0, 1, 0), (0, 0, 1)))
        [("front", square_panel)] (("front", 0), ("front", 2)) :=
  stitch_tag_symmetric_invariant.2.2 (fun _ => ((1, 0, 0), (0, 1, 0), (0, 0, 1)))
    [("front", square_panel)] "front" (3, 4) (("front", 0), ("front", 2))
    (by constructor <;> simp [side_ok, lookup_panel, square_panel, List.lookup])
    (by constructor <;> simp [side_ok, lookup_panel, square_panel, List.lookup])

end PatternCore

namespace PatternCore

theorem invalidate_post (s : Spec) :
    (∀ pr ∈ (invalidate_all_values s).parameters, pr.2.value = none)
    ∧ (∀ cs, (invalidate_all_values s).constraints = some cs →
        ∀ cp ∈ cs, ∀ infl ∈ cp.2.influence, ∀ ed ∈ infl.edge_list, ed.value = none) := by
  constructor
  · intro pr hpr
    simp only [invalidate_all_values, List.mem_map] at hpr
    obtain ⟨orig, _, rfl⟩ := hpr
    rfl
  · intro cs hcs cp hcp infl hinfl ed hed
    simp only [invalidate_all_values] at hcs
    cases hc0 : s.constraints with
    | none => rw [hc0] at hcs; simp at hcs
    | some cs0 =>
      rw [hc0] at hcs
      simp only [Option.map_some', Option.some.injEq] at hcs
      subst hcs
      simp only [List.mem_map] at hcp
      obtain ⟨cp0, _, rfl⟩ := hcp
      simp only [invalidate_constraint, List.mem_map] at hinfl
      obtain ⟨infl0, _, rfl⟩ := hinfl
      simp only [invalidate_influence, List.mem_map] at hed
      obtain ⟨ed0, _, rfl⟩ := hed
      rfl


/-- Claim C9: after any call to `ParametrizedPattern.pattern_from_tensors`
or `ParametrizedPattern.panel_from_numeric` completes (returns without
raising), every parameter's `value` field and every constraint influence
edge's cached `value` field in the pattern spec is null (`none`), regardless
of their previous values. -/
theorem decode_invalidates_parameter_values :
    (∀ (s : Spec) (rep : List (List EdgeRow)) (rots : Option (List Euler))
        (transls : Option (List Vec3)) (st : Option (List (Nat × Nat))) (padded : Bool)
        (s2 : Spec),
        parametrized_pattern_from_tensors s rep rots transls st padded = .ok s2 →
        (∀ pr ∈ s2.parameters, pr.2.value = none)
        ∧ (∀ cs, s2.constraints = some cs →
            ∀ cp ∈ cs, ∀ infl ∈ cp.2.influence, ∀ ed ∈ infl.edge_list, ed.value = none))
    ∧ (∀ (s : Spec) (name : String) (rows : List EdgeRow) (rot : Option Euler)
        (transl : Option Vec3) (padded : Bool) (s2 : Spec),
        parametrized_panel_from_numeric s name rows rot transl padded = .ok s2 →
        (∀ pr ∈ s2.parameters, pr.2.value = none)
        ∧ (∀ cs, s2.constraints = some cs →
            ∀ cp ∈ cs, ∀ infl ∈ cp.2.influence, ∀ ed ∈ infl.edge_list, ed.value = none)) := by
  constructor
  · intro s rep rots transls st padded s2 h
    rw [parametrized_pattern_from_tensors] at h
    cases hb : pattern_from_tensors s rep rots transls st padded with
    | error e => rw [hb] at h; exact absurd h (by simp)
    | ok s1 =>
      rw [hb] at h
      simp only [Except.ok.injEq] at h
      subst h
      exact invalidate_post s1
  · intro s name rows rot transl padded s2 h
    rw [parametrized_panel_from_numeric] at h
    cases hb : spec_panel_from_numeric s name rows rot transl padded with
    | error e => rw [hb] at h; exact absurd h (by simp)
    | ok s1 =>
      rw [hb] at h
      simp only [Except.ok.injEq] at h
      subst h
      exact invalidate_post s1

/-- Witness for `decode_invalidates_parameter_values` on a concrete spec
holding one parameter with value `5` and one constraint edge with cached
value `2`, decoded from a closing 3-row edge sequence. -/
theorem decode_invalidates_parameter_values_witness :
    ∃ s2 : Spec,
      parametrized_panel_from_numeric
          ⟨{}, [("len", ⟨"length", some (.inl 5), []⟩)], ["len"],
            some [("eq", ⟨"length_equality",
              [⟨"p", [⟨.inl 0, "end", none, some 2, some 10⟩]⟩]⟩)]⟩
          "panel_0" [((10, 0), (0, 0)), ((0, 10), (0, 0)), ((-10, -10), (0, 0))]
          none none false
        = .ok s2
      ∧ (∀ pr ∈ s2.parameters, pr.2.value = none)
      ∧ (∀ cs, s2.constraints = some cs →
          ∀ cp ∈ cs, ∀ infl ∈ cp.2.influence, ∀ ed ∈ infl.edge_list, ed.value = none) := by
  obtain ⟨s2, h⟩ : ∃ s2 : Spec,
      parametrized_panel_from_numeric
          ⟨{}, [("len", ⟨"length", some (.inl 5), []⟩)], ["len"],
            some [("eq", ⟨"length_equality",
              [⟨"p", [⟨.inl 0, "end", none, some 2, some 10⟩]⟩]⟩)]⟩
          "panel_0" [((10, 0), (0, 0)), ((0, 10), (0, 0)), ((-10, -10), (0, 0))]
          none none false
        = .ok s2 := by
    norm_num [parametrized_panel_from_numeric, spec_panel_from_numeric, panel_from_numeric,
      invalidate_all_values, invalidate_param, invalidate_constraint, invalidate_influence,
      invalidate_edge, List.lookup, walk_verts, edge_dict, np_atol, rows_sum,
      List.range_succ, List.zipWith, Prod.ext_iff]
  refine ⟨s2, h, ?_, ?_⟩
  · exact (decode_invalidates_parameter_values.2 _ _ _ _ _ _ s2 h).1
  · exact (decode_invalidates_parameter_values.2 _ _ _ _ _ _ s2 h).2

end PatternCore

namespace PatternCore

theorem map_except_ok {α β : Type} (f : α → Except String β) (l : List α)
    (h : ∀ a ∈ l, ∃ b, f a = .ok b) : ∃ bs, map_except f l = .ok bs := by
  induction l with
  | nil => exact ⟨[], rfl⟩
  | cons a as ih =>
    obtain ⟨b, hb⟩ := h a (by simp)
    obtain ⟨bs, hbs⟩ := ih (fun x hx => h x (by simp [hx]))
    refine ⟨b :: bs, ?_⟩
    rw [map_except, hb, hbs]

theorem lookup_perm {β : Type} {l1 l2 : List (String × β)} (h : l1.Perm l2) :
    (l1.map Prod.fst).Nodup → ∀ k : String, l1.lookup k = l2.lookup k := by
  induction h with
  | nil => intro _ k; rfl
  | cons x h ih =>
    intro hnd k
    simp only [List.map_cons, List.nodup_cons] at hnd
    obtain ⟨x1, x2⟩ := x
    cases hxk : (k == x1) <;> simp [List.lookup_cons, hxk, ih hnd.2 k]
  | swap x y l =>
    intro hnd k
    obtain ⟨x1, x2⟩ := x
    obtain ⟨y1, y2⟩ := y
    simp only [List.map_cons, List.nodup_cons, List.mem_cons, List.mem_map] at hnd
    have hxy : y1 ≠ x1 := fun hh => hnd.1 (Or.inl hh)
    cases hxk : (k == x1) <;> cases hyk : (k == y1) <;>
      simp only [List.lookup_cons, hxk, hyk]
    exact absurd (by rw [← beq_iff_eq.mp hxk, ← beq_iff_eq.mp hyk])
      (fun hh : y1 = x1 => hxy hh)

  | trans h1 h2 ih1 ih2 =>
    intro hnd k
    have hnd2 := ((h1.map Prod.fst).nodup_iff).mp hnd
    rw [ih1 hnd k, ih2 hnd2 k]

theorem sort_pairs_perm {α : Type} [LinearOrder α] (loc : α → Vec3) (dim : Nat)
    {n1 n2 : List α} (h : n1.Perm n2) : sort_pairs loc dim n1 = sort_pairs loc dim n2 := by
  have hp := (h.map (fun nm => (vcomp (loc nm) dim, nm)))
  have hs : (sort_pairs loc dim n1).Perm (sort_pairs loc dim n2) :=
    (List.perm_insertionSort _ _).trans (hp.trans (List.perm_insertionSort _ _).symm)
  exact List.eq_of_perm_of_sorted hs
    (List.sorted_insertionSort lex_le _) (List.sorted_insertionSort lex_le _)

theorem order_dim1_perm {α : Type} [LinearOrder α] (tol : ℚ) (loc : α → Vec3)
    {n1 n2 : List α} (h : n1.Perm n2) :
    order_dim1 tol loc n1 = order_dim1 tol loc n2 := by
  by_cases he : n1 = []
  · subst he
    have h2 : n2 = [] := h.symm.eq_nil
    rw [h2]
  · have he2 : n2 ≠ [] := fun hh => he (by rw [hh] at h; exact h.eq_nil)
    have hlen := h.length_eq
    have hie1 : n1.isEmpty = false := by simpa using he
    have hie2 : n2.isEmpty = false := by simpa using he2
    rw [order_dim1, order_dim1, hie1, hie2, sort_pairs_perm loc 1 h, ← hlen]

theorem order_dim0_perm {α : Type} [LinearOrder α] (tol : ℚ) (loc : α → Vec3)
    {n1 n2 : List α} (h : n1.Perm n2) :
    order_dim0 tol loc n1 = order_dim0 tol loc n2 := by
  by_cases he : n1 = []
  · subst he
    have h2 : n2 = [] := h.symm.eq_nil
    rw [h2]
  · have he2 : n2 ≠ [] := fun hh => he (by rw [hh] at h; exact h.eq_nil)
    have hlen := h.length_eq
    have hie1 : n1.isEmpty = false := by simpa using he
    have hie2 : n2.isEmpty = false := by simpa using he2
    rw [order_dim0, order_dim0, hie1, hie2, sort_pairs_perm loc 0 h, ← hlen]

theorem order_dim2_ok {α : Type} [LinearOrder α] (loc : α → Vec3) (names : List α)
    (h : names ≠ []) : ∃ out, order_dim2 loc names = .ok out := by
  have hh : order_dim2 loc names = .ok ((sort_pairs loc 2 names).map Prod.snd) := by
    rw [order_dim2, if_neg (by simpa using h)]
  exact ⟨_, hh⟩

theorem order_dim1_ok {α : Type} [LinearOrder α] (tol : ℚ) (loc : α → Vec3)
    (names : List α) (h : 2 ≤ names.length) :
    ∃ out, order_dim1 tol loc names = .ok out := by
  have he : names ≠ [] := by
    intro hh
    rw [hh] at h
    simp at h
  have h1 : names.length ≠ 1 := by omega
  obtain ⟨parts, hparts⟩ := map_except_ok
    (fun g : List (ℚ × α) =>
      if 2 ≤ g.length then order_dim2 loc (g.map Prod.snd) else .ok (g.map Prod.snd))
    (fuzzy_groups tol (sort_pairs loc 1 names))
    (by
      intro g _
      dsimp only
      by_cases hg : 2 ≤ g.length
      · rw [if_pos hg]
        exact order_dim2_ok loc (g.map Prod.snd)
          (by
            intro hh
            rw [List.map_eq_nil_iff] at hh
            rw [hh] at hg
            simp at hg)
      · rw [if_neg hg]
        exact ⟨_, rfl⟩)
  refine ⟨parts.flatten, ?_⟩
  rw [order_dim1, if_neg (by simpa using he), if_neg (by simpa using h1), hparts]

theorem order_dim0_ok {α : Type} [LinearOrder α] (tol : ℚ) (loc : α → Vec3)
    (names : List α) (h : 2 ≤ names.length) :
    ∃ out, order_dim0 tol loc names = .ok out := by
  have he : names ≠ [] := by
    intro hh
    rw [hh] at h
    simp at h
  have h1 : names.length ≠ 1 := by omega
  obtain ⟨parts, hparts⟩ := map_except_ok
    (fun g : List (ℚ × α) =>
      if 2 ≤ g.length then order_dim1 tol loc (g.map Prod.snd) else .ok (g.map Prod.snd))
    (fuzzy_groups tol (sort_pairs loc 0 names))
    (by
      intro g _
      dsimp only
      by_cases hg : 2 ≤ g.length
      · rw [if_pos hg]
        exact order_dim1_ok tol loc (g.map Prod.snd) (by simpa using hg)
      · rw [if_neg hg]
        exact ⟨_, rfl⟩)
  refine ⟨parts.flatten, ?_⟩
  rw [order_dim0, if_neg (by simpa using he), if_neg (by simpa using h1), hparts]

/-- Claim C4 (amended: restricted to patterns with at least two panels; on a
single-panel pattern `panel_order` fails with the unbound `fuzzy_end` error,
see the counterexample and claim C10).  For patterns with two or more
panels and distinct panel names, `panel_order` is deterministic and total:
calling it twice on the unmodified pattern returns identical name lists, and
any two patterns differing only in the iteration (insertion) order of the
panels mapping produce the same sorted result -- ties in the fuzzy
per-dimension comparison are broken deterministically by the name order of
the `(value, name)` sort pairs. -/
theorem panel_order_deterministic_perm_invariant :
    ∀ (e2m : Euler → Mat3) (tol : ℚ) (panels1 panels2 : List (String × Panel)),
      (panels1.map Prod.fst).Nodup → panels1.Perm panels2 → 2 ≤ panels1.length →
      panel_order e2m tol panels1 = panel_order e2m tol panels1
      ∧ panel_order e2m tol panels1 = panel_order e2m tol panels2
      ∧ ∃ out, panel_order e2m tol panels1 = .ok out := by
  intro e2m tol p1 p2 hnd hperm hlen
  have hloc : (fun nm => panel_universal_translation e2m (lookup_panel p1 nm))
      = (fun nm => panel_universal_translation e2m (lookup_panel p2 nm)) := by
    funext nm
    rw [lookup_panel, lookup_panel, lookup_perm hperm hnd nm]
  refine ⟨rfl, ?_, ?_⟩
  · rw [panel_order, panel_order, ← hloc]
    exact order_dim0_perm tol _ (hperm.map Prod.fst)
  · rw [panel_order]
    exact order_dim0_ok tol _ _ (by simpa using hlen)


/-- Witness for `panel_order_deterministic_perm_invariant` on a concrete
two-panel pattern given in both insertion orders. -/
theorem panel_order_deterministic_perm_invariant_witness :
    panel_order (fun _ => ((1, 0, 0), (0, 1, 0), (0, 0, 1))) 5
        [("a", ({} : Panel)), ("b", ({} : Panel))]
      = panel_order (fun _ => ((1, 0, 0), (0, 1, 0), (0, 0, 1))) 5
        [("a", ({} : Panel)), ("b", ({} : Panel))]
    ∧ panel_order (fun _ => ((1, 0, 0), (0, 1, 0), (0, 0, 1))) 5
        [("a", ({} : Panel)), ("b", ({} : Panel))]
      = panel_order (fun _ => ((1, 0, 0), (0, 1, 0), (0, 0, 1))) 5
        [("b", ({} : Panel)), ("a", ({} : Panel))]
    ∧ ∃ out, panel_order (fun _ => ((1, 0, 0), (0, 1, 0), (0, 0, 1))) 5
        [("a", ({} : Panel)), ("b", ({} : Panel))] = .ok out :=
  panel_order_deterministic_perm_invariant (fun _ => ((1, 0, 0), (0, 1, 0), (0, 0, 1))) 5
    [("a", ({} : Panel)), ("b", ({} : Panel))] [("b", ({} : Panel)), ("a", ({} : Panel))]
    (by simp) (List.Perm.swap ("b", ({} : Panel)) ("a", ({} : Panel)) []) (by simp)


/-- Counterexample for claim C4 as stated: on a pattern with exactly one
panel, `panel_order` does not return the singleton name list twice -- it
fails both times (`UnboundLocalError` on `fuzzy_end`), so ordering is not
total over every pattern. -/
theorem panel_order_single_panel_no_result :
    panel_order (fun _ => ((1, 0, 0), (0, 1, 0), (0, 0, 1))) 5 [("front", square_panel)]
      = .error "panel_order: local variable fuzzy_end referenced before assignment" := rfl


/-- Claim C10 (implicit): for a pattern containing exactly one panel,
`panel_order` -- and therefore `pattern_as_tensors`, which calls it first --
does not return the singleton name list but fails with the unbound
`fuzzy_end` error: the fuzzy re-sort loop body never executes for a
one-element reference list and the tail check reads the undefined loop
variable.  The error branch is reachable for every single-panel pattern,
with any rotation conversion, tolerance, and panel contents. -/
theorem panel_order_singleton_unbound_error :
    ∀ (e2m : Euler → Mat3) (tol : ℚ) (nm : String) (p : Panel)
      (stitches : List Stitch) (params : List (String × Param))
      (porder : List String) (constr : Option (List (String × Constraint)))
      (pad : Option Nat),
      panel_order e2m tol [(nm, p)]
        = .error "panel_order: local variable fuzzy_end referenced before assignment"
      ∧ pattern_as_tensors e2m ⟨⟨[(nm, p)], stitches⟩, params, porder, constr⟩ pad
        = .error "panel_order: local variable fuzzy_end referenced before assignment" := by
  intro e2m tol nm p stitches params porder constr pad
  exact ⟨rfl, rfl⟩

end PatternCore
namespace PatternCore

theorem dropLast_take {α : Type} (l : List α) (k : Nat) (hk : k ≤ l.length - 1) :
    l.dropLast.take k = l.take k := by
  rw [List.dropLast_eq_take, List.take_take]
  congr 1
  omega

theorem walk_verts_getD (rows : List EdgeRow) : ∀ (v d : Vec2) (k : Nat), k ≤ rows.length →
    (walk_verts v rows).getD k d = v + rows_sum (rows.take k) := by
  induction rows with
  | nil =>
    intro v d k hk
    have hk0 : k = 0 := by simpa using hk
    subst hk0
    simp [walk_verts, rows_sum]
  | cons r rs ih =>
    intro v d k hk
    cases k with
    | zero => simp [walk_verts, rows_sum]
    | succ k =>
      simp only [walk_verts, List.getD_cons_succ, List.take_succ_cons]
      rw [ih (v + r.1) d k (by simpa using hk), rows_sum_cons, add_assoc]

theorem foldl_min_attained (l : List ℚ) : ∀ a : ℚ, l.foldl min a = a ∨ ∃ x ∈ l, l.foldl min a = x := by
  induction l with
  | nil => intro a; exact Or.inl rfl
  | cons x xs ih =>
    intro a
    rcases ih (min a x) with h | ⟨y, hy, h⟩
    · rcases min_choice a x with hm | hm
      · exact Or.inl (by rw [List.foldl_cons, h, hm])
      · exact Or.inr ⟨x, by simp, by rw [List.foldl_cons, h, hm]⟩
    · exact Or.inr ⟨y, by simp [hy], by rw [List.foldl_cons, h]⟩

theorem vert_min_snd_attained (vrest : List Vec2) : ∀ v0 : Vec2,
    ∃ w ∈ v0 :: vrest, w.2 = (vert_min v0 vrest).2 := by
  induction vrest with
  | nil => intro v0; exact ⟨v0, by simp, rfl⟩
  | cons v vs ih =>
    intro v0
    have hstep : vert_min v0 (v :: vs) = vert_min (min v0.1 v.1, min v0.2 v.2) vs := rfl
    obtain ⟨w, hw, hweq⟩ := ih (min v0.1 v.1, min v0.2 v.2)
    rcases List.mem_cons.mp hw with rfl | hwvs
    · rcases min_choice v0.2 v.2 with hm | hm
      · exact ⟨v0, by simp, by rw [hstep, ← hweq]; exact hm.symm⟩
      · exact ⟨v, by simp, by rw [hstep, ← hweq]; exact hm.symm⟩
    · exact ⟨w, by simp [hwvs], by rw [hstep, ← hweq]⟩

theorem foldl_argmin_mem (irest : List Nat) (verts1 : List Vec2) : ∀ i0 : Nat,
    argmin_x verts1 i0 irest ∈ i0 :: irest := by
  induction irest with
  | nil => intro i0; simp [argmin_x]
  | cons i is ih =>
    intro i0
    have hstep : argmin_x verts1 i0 (i :: is)
        = argmin_x verts1 (if (vget verts1 i).1 < (vget verts1 i0).1 then i else i0) is := rfl
    rw [hstep]
    rcases List.mem_cons.mp (ih (if (vget verts1 i).1 < (vget verts1 i0).1 then i else i0)) with
      heq | hmem
    · rw [heq]
      split
      · simp
      · simp
    · simp [hmem]

theorem on_ox_ids_mem_lt (verts1 : List Vec2) (j : Nat) (h : j ∈ on_ox_ids verts1) :
    j < verts1.length := by
  rw [on_ox_ids] at h
  exact List.mem_range.mp (List.mem_filter.mp h).1

theorem shifted_verts_length (v0 : Vec2) (vrest : List Vec2) :
    (shifted_verts v0 vrest).length = (v0 :: vrest).length := by
  simp [shifted_verts]

theorem vget_shifted (v0 : Vec2) (vrest : List Vec2) (j : Nat) (hj : j < (v0 :: vrest).length) :
    vget (shifted_verts v0 vrest) j = vget (v0 :: vrest) j - vert_min v0 vrest := by
  rw [shifted_verts, vget, vget, List.getD_eq_getElem _ _ (by simpa using hj),
    List.getD_eq_getElem _ _ hj, List.getElem_map]

theorem on_ox_ids_ne_nil (v0 : Vec2) (vrest : List Vec2) :
    on_ox_ids (shifted_verts v0 vrest) ≠ [] := by
  obtain ⟨w, hw, hweq⟩ := vert_min_snd_attained vrest v0
  obtain ⟨j, hj, hjw⟩ := List.getElem_of_mem hw
  intro hnil
  have hjmem : j ∈ on_ox_ids (shifted_verts v0 vrest) := by
    rw [on_ox_ids, List.mem_filter, List.mem_range]
    refine ⟨by simpa [shifted_verts_length] using hj, ?_⟩
    rw [decide_eq_true_eq, vget_shifted v0 vrest j hj]
    have : vget (v0 :: vrest) j = w := by
      rw [vget, List.getD_eq_getElem _ _ hj, hjw]
    rw [this, Prod.snd_sub, hweq, sub_self, abs_zero]
    rw [np_atol]
    norm_num
  rw [hnil] at hjmem
  exact absurd hjmem (List.not_mem_nil j)

end PatternCore
namespace PatternCore

theorem panel_as_numeric_eval (e2m : Euler → Mat3) (p : Panel) (len : Nat) (v0 : Vec2)
    (vrest : List Vec2) (i0 : Nat) (irest : List Nat) (f : Nat)
    (hverts : p.vertices = v0 :: vrest)
    (hoox : on_ox_ids (shifted_verts v0 vrest) = i0 :: irest)
    (hfind : p.edges.findIdx? (fun e =>
        e.endpoints.1 == argmin_x (shifted_verts v0 vrest) i0 irest) = some f)
    (hpad : ¬ len < p.edges.length) :
    panel_as_numeric e2m p (some len)
      = .ok (panel_as_numeric_ok e2m p len v0 vrest i0 irest f) := by
  simp only [panel_as_numeric, panel_as_numeric_ok, canon_verts, enc_shift,
    hverts, hoox, hfind, hpad, if_false]

end PatternCore
namespace PatternCore

theorem findIdx?_some_spec {α : Type} (pr : α → Bool) (l : List α) (f : Nat) (d : α)
    (hfind : l.findIdx? pr = some f) (hex : ∃ x ∈ l, pr x = true) :
    f < l.length ∧ pr (l.getD f d) = true := by
  have hfi : l.findIdx pr = f := by
    rw [List.findIdx_eq_findIdx?, hfind]
  have hlt : l.findIdx pr < l.length := List.findIdx_lt_length_of_exists hex
  have hp := @List.findIdx_getElem _ pr l hlt
  rw [hfi] at hlt
  refine ⟨hlt, ?_⟩
  rw [List.getD_eq_getElem l d hlt]
  subst hfi
  exact hp

theorem rotated_getD {α : Type} (l : List α) (f k : Nat) (d : α)
    (hf : f < l.length) (hk : k < l.length) :
    (l.drop f ++ l.take f).getD k d = l.getD ((f + k) % l.length) d := by
  have hlen : (l.drop f).length = l.length - f := List.length_drop f l
  have hcat : k < (l.drop f ++ l.take f).length := by
    simp [List.length_take]
    omega
  by_cases hcase : k < l.length - f
  · have hmodeq : (f + k) % l.length = f + k := Nat.mod_eq_of_lt (by omega)
    rw [hmodeq, List.getD_eq_getElem _ _ hcat,
      List.getElem_append_left (by omega), List.getElem_drop,
      List.getD_eq_getElem _ _ (by omega)]
  · have harith : (f + k) % l.length = k - (l.length - f) := by
      have h1 : f + k = (k - (l.length - f)) + l.length := by omega
      rw [h1, Nat.add_mod_right, Nat.mod_eq_of_lt (by omega)]
    rw [harith, List.getD_eq_getElem _ _ hcat,
      List.getElem_append_right (by omega),
      List.getElem_take, List.getD_eq_getElem _ _ (by omega)]
    congr 1
    omega

end PatternCore
namespace PatternCore

theorem vget_map_sub (vs : List Vec2) (c : Vec2) (j : Nat) (h : j < vs.length) :
    vget (vs.map (fun v => v - c)) j = vget vs j - c := by
  simp only [vget]
  rw [List.getD_eq_getElem (vs.map (fun v => v - c)) 0 (by simpa using h),
    List.getD_eq_getElem vs 0 h, List.getElem_map]

theorem vget_canon (v0 : Vec2) (vrest : List Vec2) (i0 : Nat) (irest : List Nat) (j : Nat)
    (hj : j < (v0 :: vrest).length)
    (ho : argmin_x (shifted_verts v0 vrest) i0 irest < (v0 :: vrest).length) :
    vget (canon_verts v0 vrest i0 irest) j
      = vget (v0 :: vrest) j
        - vget (v0 :: vrest) (argmin_x (shifted_verts v0 vrest) i0 irest) := by
  rw [canon_verts, vget_map_sub _ _ j (by rw [shifted_verts_length]; exact hj),
    vget_shifted v0 vrest j hj,
    vget_shifted v0 vrest (argmin_x (shifted_verts v0 vrest) i0 irest) ho]
  exact sub_sub_sub_cancel_right _ _ _

theorem canon_origin_zero (v0 : Vec2) (vrest : List Vec2) (i0 : Nat) (irest : List Nat)
    (ho : argmin_x (shifted_verts v0 vrest) i0 irest < (v0 :: vrest).length) :
    vget (canon_verts v0 vrest i0 irest)
      (argmin_x (shifted_verts v0 vrest) i0 irest) = 0 := by
  rw [vget_canon v0 vrest i0 irest _ ho ho, sub_self]

theorem rows_telescope (p : Panel) (v0 : Vec2) (vrest : List Vec2) (i0 : Nat)
    (irest : List Nat) (f : Nat)
    (hverts : p.vertices = v0 :: vrest)
    (ho : argmin_x (shifted_verts v0 vrest) i0 irest < (v0 :: vrest).length)
    (hf : f < p.edges.length)
    (hforig : (p.edges.getD f ⟨(0, 0), none⟩).endpoints.1
      = argmin_x (shifted_verts v0 vrest) i0 irest)
    (hchain : ∀ i < p.edges.length,
      (p.edges.getD ((i + 1) % p.edges.length) ⟨(0, 0), none⟩).endpoints.1
        = (p.edges.getD i ⟨(0, 0), none⟩).endpoints.2) :
    ∀ k, k ≤ p.edges.length →
      rows_sum (((p.edges.drop f ++ p.edges.take f).map
          (edge_as_vector (canon_verts v0 vrest i0 irest))).take k)
        = vget (canon_verts v0 vrest i0 irest)
            ((p.edges.getD ((f + k) % p.edges.length) ⟨(0, 0), none⟩).endpoints.1) := by
  intro k
  induction k with
  | zero =>
    intro _
    rw [List.take_zero, Nat.add_zero, Nat.mod_eq_of_lt hf, hforig,
      canon_origin_zero v0 vrest i0 irest ho]
    rfl
  | succ k ih =>
    intro hk1
    have hkn : k < p.edges.length := by omega
    have hrlen : ((p.edges.drop f ++ p.edges.take f).map
        (edge_as_vector (canon_verts v0 vrest i0 irest))).length = p.edges.length := by
      simp [List.length_take]
      omega
    have hkr : k < ((p.edges.drop f ++ p.edges.take f).map
        (edge_as_vector (canon_verts v0 vrest i0 irest))).length := by
      rw [hrlen]; exact hkn
    rw [List.take_succ, List.getElem?_eq_getElem hkr]
    have hrowk : ((p.edges.drop f ++ p.edges.take f).map
        (edge_as_vector (canon_verts v0 vrest i0 irest)))[k]
        = edge_as_vector (canon_verts v0 vrest i0 irest)
            (p.edges.getD ((f + k) % p.edges.length) ⟨(0, 0), none⟩) := by
      rw [List.getElem_map]
      congr 1
      rw [← List.getD_eq_getElem _ (⟨(0, 0), none⟩ : Edge)
          (by rw [List.length_append, List.length_drop, List.length_take]; omega),
        rotated_getD p.edges f k _ hf hkn]
    rw [hrowk]
    simp only [Option.toList_some]
    rw [rows_sum_concat, ih (by omega)]
    have hvec : (edge_as_vector (canon_verts v0 vrest i0 irest)
        (p.edges.getD ((f + k) % p.edges.length) ⟨(0, 0), none⟩)).1
        = vget (canon_verts v0 vrest i0 irest)
            ((p.edges.getD ((f + k) % p.edges.length) ⟨(0, 0), none⟩).endpoints.2)
          - vget (canon_verts v0 vrest i0 irest)
            ((p.edges.getD ((f + k) % p.edges.length) ⟨(0, 0), none⟩).endpoints.1) := rfl
    rw [hvec, add_sub_cancel]
    have hmod : (f + (k + 1)) % p.edges.length
        = ((f + k) % p.edges.length + 1) % p.edges.length := by
      rw [Nat.mod_add_mod, Nat.add_assoc]
    rw [hmod, hchain ((f + k) % p.edges.length) (Nat.mod_lt _ (by omega))]

end PatternCore
namespace PatternCore

theorem keep_row_true_of_big (r : EdgeRow)
    (h : pad_atol < |r.1.1| ∨ pad_atol < |r.1.2| ∨ pad_atol < |r.2.1| ∨ pad_atol < |r.2.2|) :
    keep_row r = true := by
  simp only [keep_row, Bool.not_eq_true', Bool.and_eq_true, decide_eq_true_eq,
    Bool.not_eq_false']
  rw [Bool.eq_false_iff]
  intro hc
  simp only [Bool.and_eq_true, decide_eq_true_eq] at hc
  rcases h with h | h | h | h
  · exact absurd hc.1.1.1 (not_le.mpr h)
  · exact absurd hc.1.1.2 (not_le.mpr h)
  · exact absurd hc.1.2 (not_le.mpr h)
  · exact absurd hc.2 (not_le.mpr h)

theorem keep_row_zero : keep_row ((0, 0), (0, 0)) = false := by
  simp only [keep_row, Bool.not_eq_false']
  simp only [Bool.and_eq_true, decide_eq_true_eq]
  norm_num [pad_atol]

theorem edge_dict_curv_close (a b : Nat) (c : Vec2) :
    |((edge_dict a b c).curvature.getD 0).1 - c.1| ≤ 1 / 1000000
    ∧ |((edge_dict a b c).curvature.getD 0).2 - c.2| ≤ 1 / 1000000 := by
  rw [edge_dict]
  split
  case isTrue h =>
    simp only [Option.getD_none]
    have h1 : |(0 : ℚ) - c.1| = |c.1| := by rw [zero_sub, abs_neg]
    have h2 : |(0 : ℚ) - c.2| = |c.2| := by rw [zero_sub, abs_neg]
    constructor
    · rw [show ((0 : Vec2)).1 = (0 : ℚ) from rfl, h1]
      refine h.1.trans ?_
      norm_num [np_atol]
    · rw [show ((0 : Vec2)).2 = (0 : ℚ) from rfl, h2]
      refine h.2.trans ?_
      norm_num [np_atol]
  case isFalse h =>
    simp

theorem to3_sub (x y : Vec2) : to3 (x - y) = to3 x - to3 y := by
  simp [to3, Prod.mk_sub_mk]

theorem to3_neg (x : Vec2) : to3 (-x) = -(to3 x) := by
  simp only [to3]
  refine Prod.ext ?_ (Prod.ext ?_ ?_) <;> simp

theorem dot3_sub_right (a x y : Vec3) : dot3 a (x - y) = dot3 a x - dot3 a y := by
  simp only [dot3, Prod.fst_sub, Prod.snd_sub]
  ring

theorem mat3_mulvec_sub (m : Mat3) (x y : Vec3) :
    mat3_mulvec m (x - y) = mat3_mulvec m x - mat3_mulvec m y := by
  simp only [mat3_mulvec, dot3_sub_right, Prod.mk_sub_mk]

theorem panel_from_numeric_closed_eval (base : Panel) (rows : List EdgeRow)
    (rot : Euler) (tr : Vec3) (hne : rows ≠ []) (hclose : rows_sum rows = 0) :
    panel_from_numeric base rows (some rot) (some tr) false
      = .ok (Panel.mk (walk_verts 0 rows.dropLast)
          ((List.zipWith (fun i r => edge_dict i (i + 1) r.2)
              (List.range (rows.length - 1)) rows)
            ++ [edge_dict (rows.length - 1) 0 (rows.getLastD ((0, 0), (0, 0))).2])
          rot tr, false) := by
  obtain ⟨r, rs, rfl⟩ := List.exists_cons_of_ne_nil hne
  have hfin := fin_vert_eq (r :: rs) hne
  rw [hclose] at hfin
  simp only [panel_from_numeric, Bool.false_eq_true, if_false, hfin]
  rw [if_pos (by norm_num [np_atol])]
  rfl

end PatternCore
namespace PatternCore

theorem decode_padded_filter (base : Panel) (rows : List EdgeRow) (rot : Option Euler)
    (tr : Option Vec3) :
    panel_from_numeric base rows rot tr true
      = panel_from_numeric base (rows.filter keep_row) rot tr false := rfl

theorem getLastD_eq_getD {α : Type} (l : List α) (d : α) (h : l ≠ []) :
    l.getLastD d = l.getD (l.length - 1) d := by
  rw [List.getLastD_eq_getLast?, List.getLast?_eq_getElem?, List.getD_eq_getElem?_getD]


end PatternCore
namespace PatternCore

theorem mat3_mulvec_neg (m : Mat3) (x : Vec3) :
    mat3_mulvec m (-x) = -(mat3_mulvec m x) := by
  refine Prod.ext ?_ (Prod.ext ?_ ?_) <;>
    simp only [mat3_mulvec, dot3, Prod.fst_neg, Prod.snd_neg] <;> ring

/-- Claim C1: round-trip of the panel codec. For every panel with at least
one and at most `L` edges, valid vertex indices, edges chained into a single
closed loop visiting every vertex, and no degenerate (near-pad-vector)
geometry, decoding the padded tensor produced by `panel_as_numeric` (passing
rotation and translation through) succeeds without a closure warning and
reproduces the same polygon: the panel has one vertex and one edge per
original edge, the edges renumbered consecutively around the loop; for some
cyclic offset `f` chosen by the encoder, vertex `k` of the decode equals
original vertex `start((f+k) mod n)` shifted by the canonical local origin
(the encoder's chosen start vertex); every edge vector equals the original
edge's end-minus-start vector exactly; every stored curvature agrees with
the original within 1e-6 (exact except for the encoder's dropping of
near-zero curvature, below 1e-8); and each decoded vertex has the same 3D
world position under the decoded rotation and translation as the original
vertex under the original placement, exactly. -/
theorem panel_codec_roundtrip (e2m : Euler → Mat3) (p : Panel) (L : Nat)
    (hn : 1 ≤ p.edges.length) (hpadL : p.edges.length ≤ L)
    (hvalid : ∀ e ∈ p.edges,
      e.endpoints.1 < p.vertices.length ∧ e.endpoints.2 < p.vertices.length)
    (hchain : ∀ i < p.edges.length,
      (p.edges.getD ((i + 1) % p.edges.length) ⟨(0, 0), none⟩).endpoints.1
        = (p.edges.getD i ⟨(0, 0), none⟩).endpoints.2)
    (hstart : ∀ v < p.vertices.length, ∃ i < p.edges.length,
      (p.edges.getD i ⟨(0, 0), none⟩).endpoints.1 = v)
    (hbig : ∀ e ∈ p.edges,
      pad_atol < |(vget p.vertices e.endpoints.2 - vget p.vertices e.endpoints.1).1|
      ∨ pad_atol < |(vget p.vertices e.endpoints.2 - vget p.vertices e.endpoints.1).2|
      ∨ pad_atol < |(e.curvature.getD 0).1| ∨ pad_atol < |(e.curvature.getD 0).2|) :
    ∃ rows tr ids q f,
      panel_as_numeric e2m p (some L) = .ok (rows, p.rotation, tr, ids)
      ∧ panel_from_numeric {} rows (some p.rotation) (some tr) true = .ok (q, false)
      ∧ q.rotation = p.rotation ∧ q.translation = tr
      ∧ q.vertices.length = p.edges.length ∧ q.edges.length = p.edges.length
      ∧ f < p.edges.length
      ∧ (∀ k, k < p.edges.length →
          (q.edges.getD k ⟨(0, 0), none⟩).endpoints = (k, (k + 1) % p.edges.length))
      ∧ (∀ k, k < p.edges.length →
          q.vertices.getD k 0
            = vget p.vertices
                ((p.edges.getD ((f + k) % p.edges.length) ⟨(0, 0), none⟩).endpoints.1)
              - vget p.vertices ((p.edges.getD f ⟨(0, 0), none⟩).endpoints.1))
      ∧ (∀ k, k < p.edges.length →
          (edge_as_vector q.vertices (q.edges.getD k ⟨(0, 0), none⟩)).1
            = vget p.vertices
                ((p.edges.getD ((f + k) % p.edges.length) ⟨(0, 0), none⟩).endpoints.2)
              - vget p.vertices
                ((p.edges.getD ((f + k) % p.edges.length) ⟨(0, 0), none⟩).endpoints.1))
      ∧ (∀ k, k < p.edges.length →
          |((q.edges.getD k ⟨(0, 0), none⟩).curvature.getD 0).1
              - ((p.edges.getD ((f + k) % p.edges.length) ⟨(0, 0), none⟩).curvature.getD 0).1|
            ≤ 1 / 1000000
          ∧ |((q.edges.getD k ⟨(0, 0), none⟩).curvature.getD 0).2
              - ((p.edges.getD ((f + k) % p.edges.length) ⟨(0, 0), none⟩).curvature.getD 0).2|
            ≤ 1 / 1000000)
      ∧ (∀ k, k < p.edges.length →
          mat3_mulvec (e2m p.rotation) (to3 (q.vertices.getD k 0)) + tr
            = mat3_mulvec (e2m p.rotation)
                (to3 (vget p.vertices
                  ((p.edges.getD ((f + k) % p.edges.length) ⟨(0, 0), none⟩).endpoints.1)))
              + p.translation) := by
  have hN : 0 < p.vertices.length := by
    have hmem : p.edges.getD 0 ⟨(0, 0), none⟩ ∈ p.edges := by
      rw [List.getD_eq_getElem _ _ (by omega)]
      exact List.getElem_mem (by omega)
    have := (hvalid _ hmem).1
    omega
  obtain ⟨v0, vrest, hverts⟩ : ∃ v0 vrest, p.vertices = v0 :: vrest := by
    cases hv : p.vertices with
    | nil => rw [hv] at hN; simp at hN
    | cons a b => exact ⟨a, b, rfl⟩
  obtain ⟨i0, irest, hoox⟩ : ∃ i0 irest, on_ox_ids (shifted_verts v0 vrest) = i0 :: irest := by
    cases hx : on_ox_ids (shifted_verts v0 vrest) with
    | nil => exact absurd hx (on_ox_ids_ne_nil v0 vrest)
    | cons a b => exact ⟨a, b, rfl⟩
  have horig : argmin_x (shifted_verts v0 vrest) i0 irest < (v0 :: vrest).length := by
    have hm := foldl_argmin_mem irest (shifted_verts v0 vrest) i0
    rw [← hoox] at hm
    have h2 := on_ox_ids_mem_lt _ _ hm
    rwa [shifted_verts_length] at h2
  have horigN : argmin_x (shifted_verts v0 vrest) i0 irest < p.vertices.length := by
    rw [hverts]
    exact horig
  obtain ⟨i, hi, hieq⟩ := hstart _ horigN
  have hex : ∃ e ∈ p.edges, (fun e : Edge =>
      e.endpoints.1 == argmin_x (shifted_verts v0 vrest) i0 irest) e = true := by
    refine ⟨p.edges.getD i ⟨(0, 0), none⟩, ?_, ?_⟩
    · rw [List.getD_eq_getElem _ _ hi]
      exact List.getElem_mem hi
    · simpa using hieq
  obtain ⟨f, hfind⟩ : ∃ f, p.edges.findIdx? (fun e =>
      e.endpoints.1 == argmin_x (shifted_verts v0 vrest) i0 irest) = some f := by
    cases hf : p.edges.findIdx? (fun e =>
        e.endpoints.1 == argmin_x (shifted_verts v0 vrest) i0 irest) with
    | none =>
      exfalso
      rw [List.findIdx?_eq_none_iff] at hf
      obtain ⟨e, he, hpe⟩ := hex
      have h3 := hf e he
      have hpe2 : (e.endpoints.1 == argmin_x (shifted_verts v0 vrest) i0 irest) = true := hpe
      rw [h3] at hpe2
      exact Bool.false_ne_true hpe2
    | some f => exact ⟨f, rfl⟩
  obtain ⟨hflt, hfP⟩ := findIdx?_some_spec _ p.edges f ⟨(0, 0), none⟩ hfind hex
  have hforig : (p.edges.getD f ⟨(0, 0), none⟩).endpoints.1
      = argmin_x (shifted_verts v0 vrest) i0 irest := by
    simpa using hfP
  have hEnc := panel_as_numeric_eval e2m p L v0 vrest i0 irest f hverts hoox hfind (by omega)
  rw [panel_as_numeric_ok] at hEnc
  -- abbreviations
  have hvCV : ∀ j, j < p.vertices.length →
      vget (canon_verts v0 vrest i0 irest) j
        = vget p.vertices j
          - vget p.vertices ((p.edges.getD f ⟨(0, 0), none⟩).endpoints.1) := by
    intro j hj
    rw [hforig, hverts]
    exact vget_canon v0 vrest i0 irest j (by rw [← hverts]; exact hj) horig
  -- rows facts
  have hRRlen : ((p.edges.drop f ++ p.edges.take f).map
      (edge_as_vector (canon_verts v0 vrest i0 irest))).length = p.edges.length := by
    rw [List.length_map, List.length_append, List.length_drop, List.length_take]
    omega
  have hrowk : ∀ k, k < p.edges.length →
      ((p.edges.drop f ++ p.edges.take f).map
          (edge_as_vector (canon_verts v0 vrest i0 irest))).getD k ((0, 0), (0, 0))
        = edge_as_vector (canon_verts v0 vrest i0 irest)
            (p.edges.getD ((f + k) % p.edges.length) ⟨(0, 0), none⟩) := by
    intro k hk
    rw [List.getD_eq_getElem _ _ (by rw [hRRlen]; exact hk), List.getElem_map]
    congr 1
    rw [← List.getD_eq_getElem _ (⟨(0, 0), none⟩ : Edge)
        (by rw [List.length_append, List.length_drop, List.length_take]; omega),
      rotated_getD p.edges f k _ hflt hk]
  have hmemRot : ∀ e ∈ p.edges.drop f ++ p.edges.take f, e ∈ p.edges := by
    intro e he
    rcases List.mem_append.mp he with h | h
    · exact List.mem_of_mem_drop h
    · exact List.mem_of_mem_take h
  have hkeepReal : ∀ row ∈ (p.edges.drop f ++ p.edges.take f).map
      (edge_as_vector (canon_verts v0 vrest i0 irest)), keep_row row = true := by
    intro row hrow
    obtain ⟨e, he, rfl⟩ := List.mem_map.mp hrow
    have heP := hmemRot e he
    have hv := hvalid e heP
    apply keep_row_true_of_big
    have h1 : (edge_as_vector (canon_verts v0 vrest i0 irest) e).1
        = vget p.vertices e.endpoints.2 - vget p.vertices e.endpoints.1 := by
      show vget (canon_verts v0 vrest i0 irest) e.endpoints.2
          - vget (canon_verts v0 vrest i0 irest) e.endpoints.1 = _
      rw [hvCV _ hv.2, hvCV _ hv.1, sub_sub_sub_cancel_right]
    have h2 : (edge_as_vector (canon_verts v0 vrest i0 irest) e).2
        = e.curvature.getD 0 := rfl
    rw [h1, h2]
    exact hbig e heP
  have hfilter : (((p.edges.drop f ++ p.edges.take f).map
        (edge_as_vector (canon_verts v0 vrest i0 irest)))
      ++ List.replicate (L - p.edges.length) ((0, 0), (0, 0))).filter keep_row
      = (p.edges.drop f ++ p.edges.take f).map
          (edge_as_vector (canon_verts v0 vrest i0 irest)) := by
    rw [List.filter_append, List.filter_eq_self.mpr hkeepReal, List.filter_replicate,
      keep_row_zero]
    simp
  have htele := rows_telescope p v0 vrest i0 irest f hverts horig hflt hforig hchain
  have hsumall : rows_sum ((p.edges.drop f ++ p.edges.take f).map
      (edge_as_vector (canon_verts v0 vrest i0 irest))) = 0 := by
    have h5 := htele p.edges.length (le_refl _)
    rw [List.take_of_length_le (le_of_eq hRRlen)] at h5
    rw [h5]
    have h6 : (f + p.edges.length) % p.edges.length = f := by
      rw [Nat.add_mod_right, Nat.mod_eq_of_lt hflt]
    rw [h6, hforig]
    exact canon_origin_zero v0 vrest i0 irest horig
  have hRRne : (p.edges.drop f ++ p.edges.take f).map
      (edge_as_vector (canon_verts v0 vrest i0 irest)) ≠ [] := by
    rw [← List.length_pos, hRRlen]
    omega
  have hdecEval := panel_from_numeric_closed_eval {}
    ((p.edges.drop f ++ p.edges.take f).map (edge_as_vector (canon_verts v0 vrest i0 irest)))
    p.rotation
    (p.translation + -(mat3_mulvec (e2m p.rotation)
      ((enc_shift v0 vrest i0 irest).1, (enc_shift v0 vrest i0 irest).2, 0)))
    hRRne hsumall
  have hdec : panel_from_numeric {}
      (((p.edges.drop f ++ p.edges.take f).map
          (edge_as_vector (canon_verts v0 vrest i0 irest)))
        ++ List.replicate (L - p.edges.length) ((0, 0), (0, 0)))
      (some p.rotation)
      (some (p.translation + -(mat3_mulvec (e2m p.rotation)
        ((enc_shift v0 vrest i0 irest).1, (enc_shift v0 vrest i0 irest).2, 0)))) true
      = panel_from_numeric {}
        ((p.edges.drop f ++ p.edges.take f).map
          (edge_as_vector (canon_verts v0 vrest i0 irest)))
        (some p.rotation)
        (some (p.translation + -(mat3_mulvec (e2m p.rotation)
          ((enc_shift v0 vrest i0 irest).1, (enc_shift v0 vrest i0 irest).2, 0)))) false := by
    rw [decode_padded_filter, hfilter]
  -- local origin shift equals minus the origin vertex
  have hes : ((enc_shift v0 vrest i0 irest).1, (enc_shift v0 vrest i0 irest).2, (0 : ℚ))
      = -(to3 (vget p.vertices ((p.edges.getD f ⟨(0, 0), none⟩).endpoints.1))) := by
    rw [hforig, hverts, enc_shift,
      vget_shifted v0 vrest (argmin_x (shifted_verts v0 vrest) i0 irest) horig]
    refine Prod.ext ?_ (Prod.ext ?_ ?_) <;>
      simp only [to3, Prod.fst_neg, Prod.snd_neg, Prod.fst_sub, Prod.snd_sub] <;> ring
  -- endpoint bounds for every edge index
  have hstartlt : ∀ j, j < p.edges.length →
      (p.edges.getD j ⟨(0, 0), none⟩).endpoints.1 < p.vertices.length
      ∧ (p.edges.getD j ⟨(0, 0), none⟩).endpoints.2 < p.vertices.length := by
    intro j hj
    apply hvalid
    rw [List.getD_eq_getElem _ _ hj]
    exact List.getElem_mem hj
  -- the decoded vertex list, indexwise
  have hqv : ∀ k, k < p.edges.length →
      (walk_verts 0 (((p.edges.drop f ++ p.edges.take f).map
          (edge_as_vector (canon_verts v0 vrest i0 irest))).dropLast)).getD k 0
        = vget p.vertices
            ((p.edges.getD ((f + k) % p.edges.length) ⟨(0, 0), none⟩).endpoints.1)
          - vget p.vertices ((p.edges.getD f ⟨(0, 0), none⟩).endpoints.1) := by
    intro k hk
    rw [walk_verts_getD _ 0 0 k (by rw [List.length_dropLast, hRRlen]; omega),
      dropLast_take _ k (by rw [hRRlen]; omega), htele k (by omega), zero_add]
    exact hvCV _ (hstartlt _ (Nat.mod_lt (f + k) (by omega))).1
  -- endpoints of the decoded edges
  have hept : ∀ k, k < p.edges.length →
      ((((List.zipWith (fun i r => edge_dict i (i + 1) r.2)
            (List.range (((p.edges.drop f ++ p.edges.take f).map
              (edge_as_vector (canon_verts v0 vrest i0 irest))).length - 1))
            ((p.edges.drop f ++ p.edges.take f).map
              (edge_as_vector (canon_verts v0 vrest i0 irest))))
          ++ [edge_dict ((((p.edges.drop f ++ p.edges.take f)).map
              (edge_as_vector (canon_verts v0 vrest i0 irest))).length - 1) 0
            ((((p.edges.drop f ++ p.edges.take f)).map
              (edge_as_vector (canon_verts v0 vrest i0 irest))).getLastD
                ((0, 0), (0, 0))).2]).getD k ⟨(0, 0), none⟩)).endpoints
        = (k, (k + 1) % p.edges.length) := by
    intro k hk
    have hzlen : (List.zipWith (fun i r => edge_dict i (i + 1) r.2)
        (List.range (((p.edges.drop f ++ p.edges.take f).map
          (edge_as_vector (canon_verts v0 vrest i0 irest))).length - 1))
        ((p.edges.drop f ++ p.edges.take f).map
          (edge_as_vector (canon_verts v0 vrest i0 irest)))).length
        = p.edges.length - 1 := by
      rw [List.length_zipWith, List.length_range, hRRlen]
      omega
    have hed : ∀ (a b : Nat) (c : Vec2), (edge_dict a b c).endpoints = (a, b) :=
      fun a b c => rfl
    by_cases hk1 : k < p.edges.length - 1
    · rw [List.getD_append _ _ _ _ (by rw [hzlen]; omega),
        List.getD_eq_getElem _ _ (by rw [hzlen]; omega), List.getElem_zipWith,
        List.getElem_range, hed, Nat.mod_eq_of_lt (by omega)]
    · have hkeq : k = p.edges.length - 1 := by omega
      rw [List.getD_eq_getElem _ _ (by
          rw [List.length_append, hzlen, List.length_cons, List.length_nil]; omega),
        List.getElem_append_right (by rw [hzlen]; omega),
        List.getElem_singleton, hed, hRRlen, hkeq]
      have h7 : (p.edges.length - 1 + 1) % p.edges.length = 0 := by
        have h8 : p.edges.length - 1 + 1 = p.edges.length := by omega
        rw [h8, Nat.mod_self]
      rw [h7]
  -- curvature of the decoded edges, rowwise
  have hcurv : ∀ k, k < p.edges.length →
      ∃ a b, (((List.zipWith (fun i r => edge_dict i (i + 1) r.2)
            (List.range (((p.edges.drop f ++ p.edges.take f).map
              (edge_as_vector (canon_verts v0 vrest i0 irest))).length - 1))
            ((p.edges.drop f ++ p.edges.take f).map
              (edge_as_vector (canon_verts v0 vrest i0 irest))))
          ++ [edge_dict ((((p.edges.drop f ++ p.edges.take f)).map
              (edge_as_vector (canon_verts v0 vrest i0 irest))).length - 1) 0
            ((((p.edges.drop f ++ p.edges.take f)).map
              (edge_as_vector (canon_verts v0 vrest i0 irest))).getLastD
                ((0, 0), (0, 0))).2]).getD k ⟨(0, 0), none⟩)
        = edge_dict a b
            ((p.edges.getD ((f + k) % p.edges.length) ⟨(0, 0), none⟩).curvature.getD 0) := by
    intro k hk
    have hzlen : (List.zipWith (fun i r => edge_dict i (i + 1) r.2)
        (List.range (((p.edges.drop f ++ p.edges.take f).map
          (edge_as_vector (canon_verts v0 vrest i0 irest))).length - 1))
        ((p.edges.drop f ++ p.edges.take f).map
          (edge_as_vector (canon_verts v0 vrest i0 irest)))).length
        = p.edges.length - 1 := by
      rw [List.length_zipWith, List.length_range, hRRlen]
      omega
    by_cases hk1 : k < p.edges.length - 1
    · refine ⟨k, k + 1, ?_⟩
      rw [List.getD_append _ _ _ _ (by rw [hzlen]; omega),
        List.getD_eq_getElem _ _ (by rw [hzlen]; omega), List.getElem_zipWith,
        List.getElem_range,
        ← List.getD_eq_getElem _ (((0, 0), (0, 0)) : EdgeRow) (by rw [hRRlen]; omega),
        hrowk k hk]
      rfl
    · have hkeq : k = p.edges.length - 1 := by omega
      refine ⟨p.edges.length - 1, 0, ?_⟩
      rw [List.getD_eq_getElem _ _ (by
          rw [List.length_append, hzlen, List.length_cons, List.length_nil]; omega),
        List.getElem_append_right (by rw [hzlen]; omega),
        List.getElem_singleton, getLastD_eq_getD _ _ hRRne, hRRlen,
        hrowk (p.edges.length - 1) (by omega), hkeq]
      rfl
  refine ⟨_, _, _, _, f, hEnc, hdec.trans hdecEval, rfl, rfl, ?_, ?_, hflt,
    ?_, ?_, ?_, ?_, ?_⟩
  · show (walk_verts 0 _).length = _
    rw [walk_verts_length, List.length_dropLast, hRRlen]
    omega
  · show (List.zipWith _ _ _ ++ [_]).length = _
    rw [List.length_append, List.length_zipWith, List.length_range, hRRlen,
      List.length_cons, List.length_nil]
    omega
  · intro k hk
    exact hept k hk
  · intro k hk
    exact hqv k hk
  · intro k hk
    show (edge_as_vector (walk_verts 0 _) _).1 = _
    have hmodlt : (k + 1) % p.edges.length < p.edges.length := Nat.mod_lt _ (by omega)
    have hunf : ∀ (vs : List Vec2) (e : Edge),
        (edge_as_vector vs e).1 = vget vs e.endpoints.2 - vget vs e.endpoints.1 := by
      intro vs e
      rfl
    rw [hunf, hept k hk]
    show vget (walk_verts 0 _) ((k + 1) % p.edges.length) - vget (walk_verts 0 _) k = _
    have hv1 : vget (walk_verts 0 (((p.edges.drop f ++ p.edges.take f).map
        (edge_as_vector (canon_verts v0 vrest i0 irest))).dropLast)) ((k + 1) % p.edges.length)
        = vget p.vertices
            ((p.edges.getD ((f + (k + 1) % p.edges.length) % p.edges.length)
              ⟨(0, 0), none⟩).endpoints.1)
          - vget p.vertices ((p.edges.getD f ⟨(0, 0), none⟩).endpoints.1) :=
      hqv _ hmodlt
    have hv0 : vget (walk_verts 0 (((p.edges.drop f ++ p.edges.take f).map
        (edge_as_vector (canon_verts v0 vrest i0 irest))).dropLast)) k
        = vget p.vertices
            ((p.edges.getD ((f + k) % p.edges.length) ⟨(0, 0), none⟩).endpoints.1)
          - vget p.vertices ((p.edges.getD f ⟨(0, 0), none⟩).endpoints.1) :=
      hqv _ hk
    show vget (walk_verts 0 _) ((k + 1) % p.edges.length)
        - vget (walk_verts 0 _) k = _
    rw [hv1, hv0]
    have hm1 : (f + (k + 1) % p.edges.length) % p.edges.length
        = ((f + k) % p.edges.length + 1) % p.edges.length := by
      rw [Nat.add_mod_mod, Nat.mod_add_mod, ← Nat.add_assoc]
    rw [hm1, hchain _ (Nat.mod_lt (f + k) (by omega))]
    abel
  · intro k hk
    obtain ⟨a, b, hab⟩ := hcurv k hk
    rw [hab]
    exact edge_dict_curv_close a b _
  · intro k hk
    rw [hqv k hk, to3_sub, mat3_mulvec_sub, hes, mat3_mulvec_neg]
    abel

end PatternCore
namespace PatternCore

theorem panel_codec_roundtrip_witness :
    ∃ rows tr ids q f,
      panel_as_numeric (fun _ => ((1, 0, 0), (0, 1, 0), (0, 0, 1))) square_panel (some 5)
        = .ok (rows, square_panel.rotation, tr, ids)
      ∧ panel_from_numeric {} rows (some square_panel.rotation) (some tr) true = .ok (q, false)
      ∧ q.rotation = square_panel.rotation ∧ q.translation = tr
      ∧ q.vertices.length = square_panel.edges.length
      ∧ q.edges.length = square_panel.edges.length
      ∧ f < square_panel.edges.length
      ∧ (∀ k, k < square_panel.edges.length →
          (q.edges.getD k ⟨(0, 0), none⟩).endpoints
            = (k, (k + 1) % square_panel.edges.length))
      ∧ (∀ k, k < square_panel.edges.length →
          q.vertices.getD k 0
            = vget square_panel.vertices
                ((square_panel.edges.getD ((f + k) % square_panel.edges.length)
                  ⟨(0, 0), none⟩).endpoints.1)
              - vget square_panel.vertices
                  ((square_panel.edges.getD f ⟨(0, 0), none⟩).endpoints.1))
      ∧ (∀ k, k < square_panel.edges.length →
          (edge_as_vector q.vertices (q.edges.getD k ⟨(0, 0), none⟩)).1
            = vget square_panel.vertices
                ((square_panel.edges.getD ((f + k) % square_panel.edges.length)
                  ⟨(0, 0), none⟩).endpoints.2)
              - vget square_panel.vertices
                  ((square_panel.edges.getD ((f + k) % square_panel.edges.length)
                    ⟨(0, 0), none⟩).endpoints.1))
      ∧ (∀ k, k < square_panel.edges.length →
          |((q.edges.getD k ⟨(0, 0), none⟩).curvature.getD 0).1
              - ((square_panel.edges.getD ((f + k) % square_panel.edges.length)
                  ⟨(0, 0), none⟩).curvature.getD 0).1| ≤ 1 / 1000000
          ∧ |((q.edges.getD k ⟨(0, 0), none⟩).curvature.getD 0).2
              - ((square_panel.edges.getD ((f + k) % square_panel.edges.length)
                  ⟨(0, 0), none⟩).curvature.getD 0).2| ≤ 1 / 1000000)
      ∧ (∀ k, k < square_panel.edges.length →
          mat3_mulvec ((fun (_ : Euler) => (((1 : ℚ), (0 : ℚ), (0 : ℚ)), ((0 : ℚ), (1 : ℚ), (0 : ℚ)), ((0 : ℚ), (0 : ℚ), (1 : ℚ)))) square_panel.rotation)
              (to3 (q.vertices.getD k 0)) + tr
            = mat3_mulvec ((fun (_ : Euler) => (((1 : ℚ), (0 : ℚ), (0 : ℚ)), ((0 : ℚ), (1 : ℚ), (0 : ℚ)), ((0 : ℚ), (0 : ℚ), (1 : ℚ)))) square_panel.rotation)
                (to3 (vget square_panel.vertices
                  ((square_panel.edges.getD ((f + k) % square_panel.edges.length)
                    ⟨(0, 0), none⟩).endpoints.1)))
              + square_panel.translation) :=
  panel_codec_roundtrip (fun _ => ((1, 0, 0), (0, 1, 0), (0, 0, 1))) square_panel 5
    (by norm_num [square_panel])
    (by norm_num [square_panel])
    (by decide)
    (by decide)
    (by decide)
    (by norm_num [square_panel, vget, pad_atol, List.forall_mem_cons])

end PatternCore
